import Mathlib

/-!
Verification of the object-graph serializer and font-encoding engine of a
PDF-generation library.

The development shallowly embeds the Go sources:
* the indirect-object encoder (`getRef` / `encode`), which assigns 1-based
  reference numbers lazily during a single emission pass, records byte
  offsets, and emits the cross-reference table and trailer;
* the font encoding allocator (`encodeRune` / `encodeString`) with its
  Windows-1252 base slots and three spill-slot scans;
* the Type 3 glyph transcriber's quadratic-to-cubic elevation in 26.6
  fixed-point arithmetic;
* the kerning-aware layout routine `encodeAndKern` and `Truncate`.

Bytes are modelled as natural numbers, buffers as lists of bytes, Go maps
keyed by object identity as association lists over object identifiers.
-/

namespace PdfVerify

/-- Bytes of an ASCII string literal, as natural numbers. -/
def strB (s : String) : List Nat := s.data.map Char.toNat

/-- Decimal representation of a nonnegative integer, as bytes
(the output of Go's `%d` verb for a nonnegative value). -/
def natB (n : Nat) : List Nat := strB (Nat.repr n)

/-! ## Object graph and encoder state

An `object`'s `writeTo` method writes literal bytes interleaved with
reference numbers obtained from `e.getRef(o)`.  We model a body as a list
of tokens: literal byte runs, and references to other objects (identified
by a numeric id standing for Go's pointer identity).  A `ref` token writes
the decimal digits of the reference number; the surrounding literal text
(such as the " 0 R" suffix) belongs to `lit` tokens. -/

/-- Body tokens of an object: literal bytes, or an indirect reference. -/
inductive Tok : Type where
  | lit : List Nat → Tok
  | ref : Nat → Tok
  deriving DecidableEq, Repr

/-- An object graph: object identities are numbers below `N`; `body` gives
each object's `writeTo` output as a token list. -/
structure Graph : Type where
  N : Nat
  body : Nat → List Tok

/-- State of the Go `encoder` struct: the output buffer (`bytes.Buffer`),
the `objects` slice (object ids in registration order), the `refs` map
(modelled as an association list), and the `offsets` slice. -/
structure EncSt : Type where
  buf : List Nat
  objects : List Nat
  refs : List (Nat × Nat)
  offsets : List Nat
  deriving DecidableEq, Repr

/-- Lookup in an association list, modelling a Go map read. -/
def alookup : List (Nat × Nat) → Nat → Option Nat
  | [], _ => none
  | (k, v) :: es, a => if k = a then some v else alookup es a

/-- Model of `encoder.getRef`: return the cached 1-based index of `o` in
the object list, or append `o` and return the new index `len+1`. -/
def getRef (st : EncSt) (o : Nat) : Nat × EncSt :=
  match alookup st.refs o with
  | some r => (r, st)
  | none =>
      let r := st.objects.length + 1
      (r, { st with objects := st.objects ++ [o], refs := (o, r) :: st.refs })

/-- Write one body token: literal bytes verbatim, a reference as the
decimal digits of the number returned by `getRef`. -/
def writeTok (st : EncSt) (t : Tok) : EncSt :=
  match t with
  | Tok.lit bs => { st with buf := st.buf ++ bs }
  | Tok.ref o =>
      let p := getRef st o
      { p.2 with buf := p.2.buf ++ natB p.1 }

/-- Write a whole object body (the `writeTo` call inside the loop). -/
def writeToks (st : EncSt) (ts : List Tok) : EncSt :=
  ts.foldl writeTok st

/-- Header line `"<n> 0 obj\n"` written before each object body. -/
def objHeader (n : Nat) : List Nat := natB n ++ strB " 0 obj\n"

/-- One iteration of the emission loop for index `i`: record the current
buffer length as the object's offset, write the header, the body, and the
`"\nendobj\n"` trailer. -/
def writeObj (g : Graph) (st : EncSt) (i : Nat) : EncSt :=
  let st1 : EncSt := { st with offsets := st.offsets ++ [st.buf.length],
                               buf := st.buf ++ objHeader (i + 1) }
  let st2 := writeToks st1 (g.body (st.objects.getD i 0))
  { st2 with buf := st2.buf ++ strB "\nendobj\n" }

/-- The emission loop `for i := 0; i < len(e.objects); i++`, with explicit
fuel.  The Go loop re-reads `len(e.objects)` each iteration because bodies
register new objects; the fuel only bounds the number of iterations and is
chosen large enough (`g.N`) by the caller. -/
def encodeLoop (g : Graph) : Nat → EncSt → Nat → EncSt
  | 0, st, _ => st
  | fuel + 1, st, i =>
      if i < st.objects.length then
        encodeLoop g fuel (writeObj g st i) (i + 1)
      else st

/-- Offset padded to ten digits, as written by Go's `%010d`. -/
def pad10 (n : Nat) : List Nat :=
  let s := Nat.repr n
  if s.length < 10 then strB (String.mk (List.replicate (10 - s.length) '0')) ++ strB s
  else strB s

/-- One cross-reference entry line, `"%010d 00000 n\n"`. -/
def xrefLine (off : Nat) : List Nat := pad10 off ++ strB " 00000 n\n"

/-- Initial encoder state after `e.Reset()` and the header write. -/
def encInit : EncSt :=
  { buf := strB "%%PDF-1.7\n", objects := [], refs := [], offsets := [] }

/-- State after the emission loop: header line, root registration, loop. -/
def encodePass (g : Graph) (root : Nat) : Nat × EncSt :=
  let p := getRef encInit root
  (p.1, encodeLoop g g.N p.2 0)

/-- Model of `encoder.encode`: the full output, final state included.
Mirrors the Go code line by line: header, emission loop, `xref` section,
trailer, `startxref`, and the end-of-file marker. -/
def encodeFull (g : Graph) (root : Nat) : EncSt :=
  let p := encodePass g root
  let rootRef := p.1
  let st := p.2
  let startxref := st.buf.length
  { st with buf :=
      st.buf
      ++ strB "xref\n"
      ++ strB ("0 " ++ Nat.repr (st.objects.length + 1) ++ "\n")
      ++ strB "0000000000 65535 f\n"
      ++ (st.offsets.map xrefLine).flatten
      ++ strB "trailer\n"
      ++ strB ("<< /Root " ++ Nat.repr rootRef ++ " 0 R /Size "
               ++ Nat.repr (st.objects.length + 1) ++ " >>\n")
      ++ strB "startxref\n"
      ++ natB startxref ++ strB "\n"
      ++ strB "%%EOF\n" }

/-- The byte sequence returned by `encode` (hence by `Document.Encode`). -/
def encodeBytes (g : Graph) (root : Nat) : List Nat := (encodeFull g root).buf

/-! ## Monotonicity of the encoder

During the emission pass the buffer, the object list, the offsets list and
the reference map only grow; existing entries are never modified. -/

/-- Growth relation between encoder states. -/
def Mono (st st' : EncSt) : Prop :=
  st.buf <+: st'.buf ∧ st.objects <+: st'.objects ∧ st.offsets <+: st'.offsets ∧
    ∀ o r, alookup st.refs o = some r → alookup st'.refs o = some r

theorem Mono.refl (st : EncSt) : Mono st st :=
  ⟨List.prefix_rfl, List.prefix_rfl, List.prefix_rfl, fun _ _ h => h⟩

theorem Mono.trans {s t u : EncSt} (h1 : Mono s t) (h2 : Mono t u) : Mono s u :=
  ⟨h1.1.trans h2.1, h1.2.1.trans h2.2.1, h1.2.2.1.trans h2.2.2.1,
    fun o r h => h2.2.2.2 o r (h1.2.2.2 o r h)⟩

theorem getRef_mono (st : EncSt) (o : Nat) : Mono st (getRef st o).2 := by
  unfold getRef
  cases hl : alookup st.refs o with
  | some r => exact Mono.refl st
  | none =>
      refine ⟨List.prefix_rfl, List.prefix_append _ _, List.prefix_rfl, ?_⟩
      intro o' r' h'
      simp only [alookup]
      by_cases ho : o = o'
      · subst ho; rw [hl] at h'; exact absurd h' (by simp)
      · simpa [ho] using h'

theorem writeTok_mono (st : EncSt) (t : Tok) : Mono st (writeTok st t) := by
  cases t with
  | lit bs => exact ⟨List.prefix_append _ _, List.prefix_rfl, List.prefix_rfl, fun _ _ h => h⟩
  | ref o =>
      have h := getRef_mono st o
      exact Mono.trans h ⟨List.prefix_append _ _, List.prefix_rfl, List.prefix_rfl,
        fun _ _ hh => hh⟩

theorem writeToks_mono (ts : List Tok) : ∀ st : EncSt, Mono st (writeToks st ts) := by
  induction ts with
  | nil => intro st; exact Mono.refl st
  | cons t ts ih =>
      intro st
      exact Mono.trans (writeTok_mono st t) (ih (writeTok st t))

theorem writeObj_mono (g : Graph) (st : EncSt) (i : Nat) : Mono st (writeObj g st i) := by
  unfold writeObj
  refine Mono.trans (t := { st with offsets := st.offsets ++ [st.buf.length],
                                    buf := st.buf ++ objHeader (i + 1) }) ?_ ?_
  · exact ⟨List.prefix_append _ _, List.prefix_rfl, List.prefix_append _ _, fun _ _ h => h⟩
  · refine Mono.trans (writeToks_mono (g.body (st.objects.getD i 0)) _) ?_
    exact ⟨List.prefix_append _ _, List.prefix_rfl, List.prefix_rfl, fun _ _ h => h⟩

theorem encodeLoop_mono (g : Graph) :
    ∀ (fuel : Nat) (st : EncSt) (i : Nat), Mono st (encodeLoop g fuel st i) := by
  intro fuel
  induction fuel with
  | zero => intro st i; exact Mono.refl st
  | succ fuel ih =>
      intro st i
      unfold encodeLoop
      by_cases h : i < st.objects.length
      · simp only [h, if_true]
        exact Mono.trans (writeObj_mono g st i) (ih (writeObj g st i) (i + 1))
      · simp only [h, if_false]
        exact Mono.refl st

theorem encodePass_mono (g : Graph) (root : Nat) :
    strB "%%PDF-1.7\n" <+: (encodePass g root).2.buf := by
  unfold encodePass
  have h0 : Mono encInit (encodeLoop g g.N (getRef encInit root).2 0) :=
    Mono.trans (getRef_mono encInit root) (encodeLoop_mono g g.N _ 0)
  exact h0.1

/-! ## Encoder invariants

`Sync` ties the `refs` map to the `objects` slice: an object holds
reference number `r` exactly when it sits at position `r - 1` of the
registration order, and no object is registered twice.  `Bound` keeps all
registered identities inside the graph.  `hdrOK` states that every
recorded offset points at the corresponding object header in the buffer.
`ProcessedUpTo` records which objects have already had their bodies
written (and hence their outgoing references registered). -/

/-- Reference map and object list agree, and registration is unique. -/
def Sync (st : EncSt) : Prop :=
  (∀ o r, alookup st.refs o = some r ↔ 1 ≤ r ∧ st.objects[r - 1]? = some o) ∧
    st.objects.Nodup

/-- All registered object identities belong to the graph. -/
def Bound (g : Graph) (st : EncSt) : Prop := ∀ o ∈ st.objects, o < g.N

/-- Every recorded offset points at the matching `"<k> 0 obj\n"` header. -/
def hdrOK (buf offsets : List Nat) : Prop :=
  ∀ k off, offsets[k]? = some off →
    off + (objHeader (k + 1)).length ≤ buf.length ∧ objHeader (k + 1) <+: buf.drop off

/-- Bodies of the first `i` registered objects have been written, so all
their outgoing references are registered. -/
def ProcessedUpTo (g : Graph) (st : EncSt) (i : Nat) : Prop :=
  ∀ j o, j < i → st.objects[j]? = some o →
    ∀ o', Tok.ref o' ∈ g.body o → (alookup st.refs o').isSome

theorem isSome_of_mono {s t : EncSt} (h : Mono s t) {o : Nat}
    (hs : (alookup s.refs o).isSome) : (alookup t.refs o).isSome := by
  cases hr : alookup s.refs o with
  | none => rw [hr] at hs; exact absurd hs (by simp)
  | some r => rw [h.2.2.2 o r hr]; rfl

theorem alookup_cons (k v a : Nat) (es : List (Nat × Nat)) :
    alookup ((k, v) :: es) a = if k = a then some v else alookup es a := rfl

theorem getRef_cached {st : EncSt} {o r : Nat} (h : alookup st.refs o = some r) :
    getRef st o = (r, st) := by
  unfold getRef; rw [h]

theorem getRef_fresh {st : EncSt} {o : Nat} (h : alookup st.refs o = none) :
    getRef st o = (st.objects.length + 1,
      { st with objects := st.objects ++ [o],
                refs := (o, st.objects.length + 1) :: st.refs }) := by
  unfold getRef; rw [h]

theorem getRef_registered (st : EncSt) (o : Nat) :
    alookup (getRef st o).2.refs o = some (getRef st o).1 := by
  cases hr : alookup st.refs o with
  | some r => rw [getRef_cached hr]; exact hr
  | none => rw [getRef_fresh hr]; simp [alookup]

theorem sync_mem {st : EncSt} (h : Sync st) {o : Nat} :
    o ∈ st.objects ↔ (alookup st.refs o).isSome := by
  constructor
  · intro hm
    obtain ⟨k, hk, hget⟩ := List.getElem_of_mem hm
    have : alookup st.refs o = some (k + 1) := by
      rw [h.1 o (k + 1)]
      exact ⟨Nat.le_add_left 1 k, by simp [List.getElem?_eq_getElem hk, hget]⟩
    rw [this]; rfl
  · intro hs
    cases hr : alookup st.refs o with
    | none => rw [hr] at hs; exact absurd hs (by simp)
    | some r =>
        have := (h.1 o r).1 hr
        exact List.getElem?_mem this.2

theorem getRef_sync {st : EncSt} (h : Sync st) (o : Nat) : Sync (getRef st o).2 := by
  cases hr : alookup st.refs o with
  | some r => rw [getRef_cached hr]; exact h
  | none =>
      rw [getRef_fresh hr]
      have hnotmem : o ∉ st.objects := by
        rw [sync_mem h, hr]; simp
      constructor
      · intro o' r'
        constructor
        · intro hl
          rw [alookup_cons] at hl
          by_cases ho : o = o'
          · subst ho
            rw [if_pos rfl, Option.some.injEq] at hl
            subst hl
            refine ⟨Nat.le_add_left 1 _, ?_⟩
            simp [List.getElem?_concat_length st.objects o]
          · rw [if_neg ho] at hl
            have := (h.1 o' r').1 hl
            refine ⟨this.1, ?_⟩
            have hlt : r' - 1 < st.objects.length := by
              have := List.getElem?_eq_some.mp this.2
              exact this.1
            rw [List.getElem?_append_left hlt]
            exact this.2
        · rintro ⟨hr1, hget⟩
          by_cases hlt : r' - 1 < st.objects.length
          · rw [List.getElem?_append_left hlt] at hget
            have hl := (h.1 o' r').2 ⟨hr1, hget⟩
            have ho : o ≠ o' := by
              intro he; subst he
              rw [hr] at hl; exact absurd hl (by simp)
            simp only [alookup, if_neg ho]
            exact hl
          · have hle : st.objects.length ≤ r' - 1 := Nat.le_of_not_lt hlt
            have hlt2 : r' - 1 < st.objects.length + 1 := by
              have := (List.getElem?_eq_some.mp hget).1
              simpa using this
            have he : r' - 1 = st.objects.length := Nat.le_antisymm (Nat.lt_succ_iff.mp hlt2) hle
            rw [he] at hget
            rw [List.getElem?_concat_length] at hget
            have ho : o = o' := by injection hget
            subst ho
            have hr' : r' = st.objects.length + 1 := by omega
            simp [alookup, hr']
      · exact List.Nodup.append h.2 (List.nodup_singleton o) (by
          intro a ha hb
          rw [List.mem_singleton] at hb
          subst hb
          exact hnotmem ha)

theorem getRef_bound {g : Graph} {st : EncSt} (h : Bound g st) {o : Nat} (ho : o < g.N) :
    Bound g (getRef st o).2 := by
  cases hr : alookup st.refs o with
  | some r => rw [getRef_cached hr]; exact h
  | none =>
      rw [getRef_fresh hr]
      intro a ha
      rcases List.mem_append.mp ha with hm | hm
      · exact h a hm
      · rw [List.mem_singleton] at hm; subst hm; exact ho

theorem getRef_offsets (st : EncSt) (o : Nat) : (getRef st o).2.offsets = st.offsets := by
  cases hr : alookup st.refs o with
  | some r => rw [getRef_cached hr]
  | none => rw [getRef_fresh hr]

theorem getRef_objects_ne (st : EncSt) (o : Nat) : (getRef st o).2.objects.length ≥ st.objects.length := by
  cases hr : alookup st.refs o with
  | some r => rw [getRef_cached hr]
  | none => rw [getRef_fresh hr]; simp

theorem writeTok_sync {st : EncSt} (h : Sync st) (t : Tok) : Sync (writeTok st t) := by
  cases t with
  | lit bs => exact h
  | ref o =>
      show Sync { (getRef st o).2 with buf := (getRef st o).2.buf ++ natB (getRef st o).1 }
      have := getRef_sync h o
      exact this

theorem writeTok_bound {g : Graph} {st : EncSt} (h : Bound g st) {t : Tok}
    (ht : ∀ o', t = Tok.ref o' → o' < g.N) : Bound g (writeTok st t) := by
  cases t with
  | lit bs => exact h
  | ref o =>
      show Bound g { (getRef st o).2 with buf := (getRef st o).2.buf ++ natB (getRef st o).1 }
      exact getRef_bound h (ht o rfl)

theorem writeTok_offsets (st : EncSt) (t : Tok) : (writeTok st t).offsets = st.offsets := by
  cases t with
  | lit bs => rfl
  | ref o =>
      show (getRef st o).2.offsets = st.offsets
      exact getRef_offsets st o

theorem writeToks_sync {ts : List Tok} : ∀ {st : EncSt}, Sync st → Sync (writeToks st ts) := by
  induction ts with
  | nil => intro st h; exact h
  | cons t ts ih => intro st h; exact ih (writeTok_sync h t)

theorem writeToks_bound {g : Graph} {ts : List Tok} :
    ∀ {st : EncSt}, Bound g st → (∀ o', Tok.ref o' ∈ ts → o' < g.N) →
      Bound g (writeToks st ts) := by
  induction ts with
  | nil => intro st h _; exact h
  | cons t ts ih =>
      intro st h ht
      exact ih (writeTok_bound h (fun o' he => ht o' (he ▸ List.mem_cons_self t ts)))
        (fun o' hm => ht o' (List.mem_cons_of_mem t hm))

theorem writeToks_offsets (ts : List Tok) :
    ∀ st : EncSt, (writeToks st ts).offsets = st.offsets := by
  induction ts with
  | nil => intro st; rfl
  | cons t ts ih =>
      intro st
      show (writeToks (writeTok st t) ts).offsets = st.offsets
      rw [ih, writeTok_offsets]

theorem writeToks_registered {ts : List Tok} :
    ∀ (st : EncSt) (o' : Nat), Tok.ref o' ∈ ts →
      (alookup (writeToks st ts).refs o').isSome := by
  induction ts with
  | nil => intro st o' h; exact absurd h (List.not_mem_nil _)
  | cons t ts ih =>
      intro st o' h
      rcases List.mem_cons.mp h with he | hm
      · subst he
        have hreg : (alookup (writeTok st (Tok.ref o')).refs o').isSome := by
          show (alookup { (getRef st o').2 with
            buf := (getRef st o').2.buf ++ natB (getRef st o').1 }.refs o').isSome
          rw [getRef_registered]; rfl
        exact isSome_of_mono (writeToks_mono ts (writeTok st (Tok.ref o'))) hreg
      · exact ih (writeTok st t) o' hm

/-! ## Header offsets are preserved as the buffer grows -/

theorem hdrOK_append {buf offs : List Nat} (h : hdrOK buf offs) (t : List Nat) :
    hdrOK (buf ++ t) offs := by
  intro k off hk
  obtain ⟨hlen, hpre⟩ := h k off hk
  have hoff : off ≤ buf.length := le_trans (Nat.le_add_right _ _) hlen
  constructor
  · calc off + (objHeader (k + 1)).length ≤ buf.length := hlen
      _ ≤ (buf ++ t).length := by simp
  · rw [List.drop_append_of_le_length hoff]
    exact hpre.trans (List.prefix_append _ _)

theorem hdrOK_of_prefix {buf buf' offs : List Nat} (h : hdrOK buf offs)
    (hp : buf <+: buf') : hdrOK buf' offs := by
  obtain ⟨t, rfl⟩ := hp
  exact hdrOK_append h t

theorem hdrOK_snoc {buf offs : List Nat} {i : Nat} (h : hdrOK buf offs)
    (hlen : offs.length = i) :
    hdrOK (buf ++ objHeader (i + 1)) (offs ++ [buf.length]) := by
  intro k off hk
  by_cases hki : k < offs.length
  · rw [List.getElem?_append_left hki] at hk
    exact hdrOK_append h (objHeader (i + 1)) k off hk
  · have hk2 : k < offs.length + 1 := by
      have := (List.getElem?_eq_some.mp hk).1
      simpa using this
    have hke : k = offs.length := Nat.le_antisymm (Nat.lt_succ_iff.mp hk2) (Nat.le_of_not_lt hki)
    subst hke
    rw [List.getElem?_concat_length] at hk
    have hoe : off = buf.length := by injection hk; omega
    subst hoe
    rw [hlen]
    constructor
    · simp
    · rw [List.drop_left]

/-! ## The emission loop establishes its invariants -/

theorem sync_length_le {g : Graph} {st : EncSt} (hs : Sync st) (hb : Bound g st) :
    st.objects.length ≤ g.N := by
  have h1 : st.objects.toFinset ⊆ Finset.range g.N := by
    intro x hx
    rw [List.mem_toFinset] at hx
    exact Finset.mem_range.mpr (hb x hx)
  have h2 := Finset.card_le_card h1
  rw [List.toFinset_card_of_nodup hs.2] at h2
  simpa using h2

theorem processed_of_mono {g : Graph} {s t : EncSt} {i : Nat} (hp : ProcessedUpTo g s i)
    (hm : Mono s t) (hi : i ≤ s.objects.length) : ProcessedUpTo g t i := by
  intro j o hj hjo o' href
  obtain ⟨tl, htl⟩ := hm.2.1
  have hjlen : j < s.objects.length := lt_of_lt_of_le hj hi
  have hgs : s.objects[j]? = some o := by
    rw [← htl] at hjo
    rwa [List.getElem?_append_left hjlen] at hjo
  exact isSome_of_mono hm (hp j o hj hgs o' href)

theorem writeObj_step {g : Graph} {st : EncSt} {i : Nat}
    (hs : Sync st) (hb : Bound g st) (hi : i < st.objects.length)
    (hoff : st.offsets.length = i) (hh : hdrOK st.buf st.offsets)
    (hp : ProcessedUpTo g st i)
    (hwf : ∀ o o', Tok.ref o' ∈ g.body o → o' < g.N) :
    Sync (writeObj g st i) ∧ Bound g (writeObj g st i) ∧
      i + 1 ≤ (writeObj g st i).objects.length ∧
      (writeObj g st i).offsets.length = i + 1 ∧
      hdrOK (writeObj g st i).buf (writeObj g st i).offsets ∧
      ProcessedUpTo g (writeObj g st i) (i + 1) := by
  set st1 : EncSt := { st with offsets := st.offsets ++ [st.buf.length],
                               buf := st.buf ++ objHeader (i + 1) } with hst1
  set body := g.body (st.objects.getD i 0) with hbody
  set st2 := writeToks st1 body with hst2
  have hm12 : Mono st1 st2 := writeToks_mono body st1
  have hsync2 : Sync st2 := writeToks_sync hs
  have hbound2 : Bound g st2 :=
    writeToks_bound hb (fun o' hm => hwf (st.objects.getD i 0) o' hm)
  have hoffs2 : st2.offsets = st.offsets ++ [st.buf.length] := writeToks_offsets body st1
  have hlen2 : st.objects.length ≤ st2.objects.length := by
    have := hm12.2.1.length_le
    simpa using this
  have hw : writeObj g st i = { st2 with buf := st2.buf ++ strB "\nendobj\n" } := rfl
  rw [hw]
  refine ⟨hsync2, hbound2, ?_, ?_, ?_, ?_⟩
  · exact le_trans (Nat.succ_le_of_lt hi) hlen2
  · simp [hoffs2, hoff]
  · have hh1 : hdrOK st1.buf st1.offsets := hdrOK_snoc hh hoff
    have hh2 : hdrOK st2.buf st2.offsets := by
      rw [hoffs2]
      exact hdrOK_of_prefix hh1 hm12.1
    rw [show ({ st2 with buf := st2.buf ++ strB "\nendobj\n" } : EncSt).offsets = st2.offsets
          from rfl]
    exact hdrOK_append hh2 _
  · intro j o hj hjo o' href
    show (alookup st2.refs o').isSome
    have hjo2 : st2.objects[j]? = some o := hjo
    by_cases hji : j < i
    · have hjlen : j < st.objects.length := lt_trans hji hi
      obtain ⟨tl, htl⟩ := hm12.2.1
      have hgs : st.objects[j]? = some o := by
        have : st1.objects = st.objects := rfl
        rw [← htl, this] at hjo2
        rwa [List.getElem?_append_left hjlen] at hjo2
      exact isSome_of_mono hm12 (hp j o hji hgs o' href)
    · have hje : j = i := by omega
      subst hje
      have hoeq : o = st.objects.getD j 0 := by
        obtain ⟨tl, htl⟩ := hm12.2.1
        have : st1.objects = st.objects := rfl
        rw [← htl, this, List.getElem?_append_left hi] at hjo2
        have h1 : st.objects[j]? = some (st.objects.getD j 0) := by
          rw [List.getD_eq_getElem st.objects 0 hi]
          exact List.getElem?_eq_getElem hi
        rw [h1] at hjo2
        injection hjo2 with h2
        exact h2.symm
      subst hoeq
      exact writeToks_registered st1 o' (by rw [← hbody] at href; exact href)

theorem encodeLoop_main {g : Graph}
    (hwf : ∀ o o', Tok.ref o' ∈ g.body o → o' < g.N) :
    ∀ (fuel : Nat) (st : EncSt) (i : Nat),
      Sync st → Bound g st → i ≤ st.objects.length → st.offsets.length = i →
      hdrOK st.buf st.offsets → ProcessedUpTo g st i → g.N ≤ fuel + i →
      Sync (encodeLoop g fuel st i) ∧ Bound g (encodeLoop g fuel st i) ∧
        (encodeLoop g fuel st i).offsets.length = (encodeLoop g fuel st i).objects.length ∧
        hdrOK (encodeLoop g fuel st i).buf (encodeLoop g fuel st i).offsets ∧
        ProcessedUpTo g (encodeLoop g fuel st i) (encodeLoop g fuel st i).objects.length := by
  intro fuel
  induction fuel with
  | zero =>
      intro st i hs hb hi hoff hh hp hfuel
      have hle : st.objects.length ≤ g.N := sync_length_le hs hb
      have hie : i = st.objects.length := by omega
      show Sync st ∧ _
      refine ⟨hs, hb, ?_, hh, ?_⟩
      · show st.offsets.length = st.objects.length
        omega
      · show ProcessedUpTo g st st.objects.length
        rw [← hie]; exact hp
  | succ fuel ih =>
      intro st i hs hb hi hoff hh hp hfuel
      unfold encodeLoop
      by_cases hil : i < st.objects.length
      · simp only [hil, if_true]
        obtain ⟨h1, h2, h3, h4, h5, h6⟩ := writeObj_step hs hb hil hoff hh hp hwf
        exact ih (writeObj g st i) (i + 1) h1 h2 h3 h4 h5 h6 (by omega)
      · simp only [hil, if_false]
        have hle : st.objects.length ≤ g.N := sync_length_le hs hb
        have hie : i = st.objects.length := by omega
        refine ⟨hs, hb, by omega, hh, ?_⟩
        rw [← hie]; exact hp

/-- Bundled invariants of the final encoder state, for a well-formed graph. -/
theorem encodePass_main {g : Graph} {root : Nat} (hroot : root < g.N)
    (hwf : ∀ o o', Tok.ref o' ∈ g.body o → o' < g.N) :
    Sync (encodePass g root).2 ∧ Bound g (encodePass g root).2 ∧
      (encodePass g root).2.offsets.length = (encodePass g root).2.objects.length ∧
      hdrOK (encodePass g root).2.buf (encodePass g root).2.offsets ∧
      ProcessedUpTo g (encodePass g root).2 (encodePass g root).2.objects.length := by
  have hsync0 : Sync encInit := by
    constructor
    · intro o r
      constructor
      · intro h; exact absurd h (by simp [encInit, alookup])
      · rintro ⟨h1, h2⟩; exact absurd h2 (by simp [encInit])
    · exact List.nodup_nil
  have hb0 : Bound g encInit := by intro o h; exact absurd h (List.not_mem_nil o)
  have hs1 : Sync (getRef encInit root).2 := getRef_sync hsync0 root
  have hb1 : Bound g (getRef encInit root).2 := getRef_bound hb0 hroot
  have hoff1 : (getRef encInit root).2.offsets.length = 0 := by
    rw [getRef_offsets]; rfl
  have hh1 : hdrOK (getRef encInit root).2.buf (getRef encInit root).2.offsets := by
    rw [getRef_offsets]
    intro k off hk
    exact absurd hk (by simp [encInit])
  have hp1 : ProcessedUpTo g (getRef encInit root).2 0 := by
    intro j o hj; exact absurd hj (Nat.not_lt_zero j)
  exact encodeLoop_main hwf g.N (getRef encInit root).2 0 hs1 hb1 (Nat.zero_le _)
    hoff1 hh1 hp1 (by omega)

theorem encodeFull_objects (g : Graph) (root : Nat) :
    (encodeFull g root).objects = (encodePass g root).2.objects := rfl

theorem encodeFull_offsets (g : Graph) (root : Nat) :
    (encodeFull g root).offsets = (encodePass g root).2.offsets := rfl

theorem encodePass_buf_isPre (g : Graph) (root : Nat) :
    (encodePass g root).2.buf <+: encodeBytes g root := by
  unfold encodeBytes encodeFull
  exact List.prefix_rfl.trans (List.prefix_append _ _) |>.trans (List.prefix_append _ _)
    |>.trans (List.prefix_append _ _) |>.trans (List.prefix_append _ _)
    |>.trans (List.prefix_append _ _) |>.trans (List.prefix_append _ _)
    |>.trans (List.prefix_append _ _) |>.trans (List.prefix_append _ _)
    |>.trans (List.prefix_append _ _) |>.trans (List.prefix_append _ _)

/-- Claim C1: for every document object graph, the byte offset recorded in
the cross-reference table entry for object `k` equals the byte position in
the final output at which that object's header line `"<k> 0 obj"` begins:
dropping exactly that many bytes from the output leaves the header as a
prefix, and every emitted object has such an entry. -/
theorem C1_xref_offsets_match (g : Graph) (root : Nat) (hroot : root < g.N)
    (hwf : ∀ o o', Tok.ref o' ∈ g.body o → o' < g.N) :
    ∀ k, k < (encodeFull g root).objects.length →
      ∃ off, (encodeFull g root).offsets[k]? = some off ∧
        objHeader (k + 1) <+: (encodeBytes g root).drop off := by
  intro k hk
  obtain ⟨hs, hb, hlen, hh, hp⟩ := encodePass_main hroot hwf
  rw [encodeFull_objects] at hk
  have hk2 : k < (encodePass g root).2.offsets.length := by omega
  obtain ⟨off, hoff⟩ : ∃ off, (encodePass g root).2.offsets[k]? = some off :=
    ⟨_, List.getElem?_eq_getElem hk2⟩
  have hfinal : hdrOK (encodeBytes g root) (encodePass g root).2.offsets :=
    hdrOK_of_prefix hh (encodePass_buf_isPre g root)
  refine ⟨off, ?_, (hfinal k off hoff).2⟩
  rw [encodeFull_offsets]
  exact hoff

/-- Objects reachable from the root through bodies' reference tokens. -/
def Reaches (g : Graph) : Nat → Nat → Prop :=
  Relation.ReflTransGen (fun a b => Tok.ref b ∈ g.body a)

/-- Claim C2: `getRef` is idempotent per object instance — the first call
for an instance returns a newly allocated number equal to the registry
size plus one, and every later call with the same instance returns that
same cached number; consequently every object reachable from the root is
registered exactly once (the registration order is duplicate-free), with a
reference number equal to its 1-based position in first-discovery order
during the single emission pass. -/
theorem C2_getRef_idempotent_unique :
    (∀ (st : EncSt) (o : Nat),
        (∀ r, alookup st.refs o = some r → getRef st o = (r, st)) ∧
        (alookup st.refs o = none → (getRef st o).1 = st.objects.length + 1) ∧
        alookup (getRef st o).2.refs o = some (getRef st o).1 ∧
        getRef (getRef st o).2 o = ((getRef st o).1, (getRef st o).2)) ∧
    (∀ (g : Graph) (root : Nat), root < g.N →
      (∀ o o', Tok.ref o' ∈ g.body o → o' < g.N) →
      (encodePass g root).2.objects.Nodup ∧
        ∀ o, Reaches g root o →
          ∃ r, alookup (encodePass g root).2.refs o = some r ∧
            (encodePass g root).2.objects[r - 1]? = some o) := by
  constructor
  · intro st o
    refine ⟨fun r h => getRef_cached h, ?_, getRef_registered st o, ?_⟩
    · intro h; rw [getRef_fresh h]
    · exact getRef_cached (getRef_registered st o)
  · intro g root hroot hwf
    obtain ⟨hs, hb, hlen, hh, hp⟩ := encodePass_main hroot hwf
    refine ⟨hs.2, ?_⟩
    intro o hreach
    induction hreach with
    | refl =>
        have hreg : alookup (getRef encInit root).2.refs root =
            some (getRef encInit root).1 := getRef_registered encInit root
        have hmono : Mono (getRef encInit root).2 (encodePass g root).2 :=
          encodeLoop_mono g g.N (getRef encInit root).2 0
        have hreg2 := hmono.2.2.2 root (getRef encInit root).1 hreg
        exact ⟨(getRef encInit root).1, hreg2, ((hs.1 root _).1 hreg2).2⟩
    | tail hab hedge ih =>
        rename_i a b
        obtain ⟨ra, hra, hpos⟩ := ih
        have hja : ra - 1 < (encodePass g root).2.objects.length :=
          (List.getElem?_eq_some.mp hpos).1
        have hregb : (alookup (encodePass g root).2.refs b).isSome :=
          hp (ra - 1) a hja hpos b hedge
        obtain ⟨rb, hrb⟩ := Option.isSome_iff_exists.mp hregb
        exact ⟨rb, hrb, ((hs.1 b rb).1 hrb).2⟩

/-- Concrete two-object graph (a catalog referencing an empty page tree),
used to instantiate the encoder theorems. -/
def gW : Graph where
  N := 2
  body := fun o =>
    match o with
    | 0 => [Tok.lit (strB "<< /Type /Catalog /Pages "), Tok.ref 1, Tok.lit (strB " 0 R >>")]
    | 1 => [Tok.lit (strB "<< /Type /Pages /Count 0 /Kids [] >>")]
    | _ => []

theorem gW_wf : ∀ o o', Tok.ref o' ∈ gW.body o → o' < gW.N := by
  intro o o' h
  match o with
  | 0 => simp [gW] at h; subst h; decide
  | 1 => simp [gW] at h
  | (n + 2) => simp [gW] at h

theorem C1_witness :
    ∃ off, (encodeFull gW 0).offsets[0]? = some off ∧
      objHeader 1 <+: (encodeBytes gW 0).drop off :=
  C1_xref_offsets_match gW 0 (by decide) gW_wf 0 (by decide)

theorem C2_witness :
    ∃ r, alookup (encodePass gW 0).2.refs 1 = some r ∧
      (encodePass gW 0).2.objects[r - 1]? = some 1 :=
  (C2_getRef_idempotent_unique.2 gW 0 (by decide) gW_wf).2 1
    (Relation.ReflTransGen.single (by decide))

/-- Claim C8 (divergence): each cross-reference entry written by the code
is `"%010d 00000 n\n"` — ten offset digits, a space, five generation
digits, a space, the status letter and a bare newline — which is 19 bytes,
not the 20-byte fixed-width line the claim (and the PDF standard's
two-byte line terminator) requires. -/
theorem pad10_length (off : Nat) (h : (Nat.repr off).length ≤ 10) :
    (pad10 off).length = 10 := by
  unfold pad10
  have hd : ∀ s : String, (strB s).length = s.length := by
    intro s
    rw [strB, List.length_map]
    rfl
  by_cases hlt : (Nat.repr off).length < 10
  · rw [if_pos hlt]
    rw [List.length_append, hd, hd]
    have : (String.mk (List.replicate (10 - (Nat.repr off).length) '0')).length
        = 10 - (Nat.repr off).length := List.length_replicate _ _
    omega
  · rw [if_neg hlt]
    rw [hd]
    omega

theorem C8_xref_line_is_19_bytes (off : Nat) (h : (Nat.repr off).length ≤ 10) :
    (xrefLine off).length = 19 ∧ (strB "0000000000 65535 f\n").length = 19 := by
  refine ⟨?_, by decide⟩
  unfold xrefLine
  rw [List.length_append, pad10_length off h]
  have : (strB " 00000 n\n").length = 9 := by decide
  omega

theorem C8_witness : (xrefLine 17).length = 19 ∧ (strB "0000000000 65535 f\n").length = 19 :=
  C8_xref_line_is_19_bytes 17 (by decide)

/-- Model of `Page.writeTo`: the page dictionary body, parameterised by
the enumeration order of the Go map `p.fonts` (font object id, local font
number), whose iteration order Go does not fix.  The `%g`-rendered
MediaBox dimensions are passed as pre-rendered bytes. -/
def pageToks (parentId contentsId : Nat) (fonts : List (Nat × Nat))
    (mediaBox : List Nat) : List Tok :=
  [Tok.lit (strB "<< /Type /Page "),
   Tok.lit (strB "/Parent "), Tok.ref parentId, Tok.lit (strB " 0 R "),
   Tok.lit (strB "/Contents "), Tok.ref contentsId, Tok.lit (strB " 0 R "),
   Tok.lit (strB "/Resources << ")]
  ++ (if fonts.length > 0 then
        [Tok.lit (strB "/Font << ")]
        ++ fonts.flatMap (fun fi =>
             [Tok.lit (strB ("/F" ++ Nat.repr fi.2 ++ " ")), Tok.ref fi.1,
              Tok.lit (strB " 0 R ")])
        ++ [Tok.lit (strB ">> ")]
      else [])
  ++ [Tok.lit (strB ">> "),
      Tok.lit (strB "/MediaBox [0 0 "), Tok.lit mediaBox, Tok.lit (strB "] "),
      Tok.lit (strB ">>")]

/-- One enumeration order of the two-font map `{f4 ↦ 0, f5 ↦ 1}`. -/
def pageFontsEnum1 : List (Nat × Nat) := [(4, 0), (5, 1)]

/-- The other enumeration order of the same two-font map. -/
def pageFontsEnum2 : List (Nat × Nat) := [(5, 1), (4, 0)]

/-- A document with one page using two fonts: catalog, page tree, page,
contents stream, and the two fonts (bodies of the collaborating objects
abbreviated to literals; the page body is the faithful `pageToks`). -/
def docGraph (fonts : List (Nat × Nat)) : Graph where
  N := 6
  body := fun o =>
    match o with
    | 0 => [Tok.lit (strB "<< /Type /Catalog /Pages "), Tok.ref 1, Tok.lit (strB " 0 R >>")]
    | 1 => [Tok.lit (strB "<< /Type /Pages /Count 1 /Kids ["), Tok.ref 2,
            Tok.lit (strB " 0 R] >>")]
    | 2 => pageToks 1 3 fonts (strB "612 792")
    | 3 => [Tok.lit (strB "<< /Length 0 >>\nstream\n\nendstream")]
    | 4 => [Tok.lit (strB "<< /Type /Font /Subtype /Type3 >>")]
    | 5 => [Tok.lit (strB "<< /Type /Font /Subtype /Type3 >>")]
    | _ => []

set_option maxRecDepth 100000 in
/-- Claim C3 (divergence): the same document — one page whose font map
holds the same two fonts — serialises to different byte sequences under
the two possible iteration orders of the Go map `p.fonts` ranged over in
`Page.writeTo`, so `Document.Encode` is not deterministic run to run. -/
theorem C3_map_order_changes_output :
    pageFontsEnum1.Perm pageFontsEnum2 ∧
      encodeBytes (docGraph pageFontsEnum1) 0 ≠ encodeBytes (docGraph pageFontsEnum2) 0 := by
  refine ⟨by decide, ?_⟩
  decide

/-- Claim C10: for every document, the byte sequence returned by `Encode`
begins with the literal bytes `"%%PDF-1.7\n"` (two percent characters,
written with `WriteString` rather than a format verb) and ends with the
literal bytes `"%%EOF\n"`. -/
theorem C10_output_delimiters (g : Graph) (root : Nat) :
    strB "%%PDF-1.7\n" <+: encodeBytes g root ∧
      strB "%%EOF\n" <:+ encodeBytes g root := by
  constructor
  · have h := encodePass_mono g root
    unfold encodeBytes encodeFull
    exact h.trans (List.prefix_append _ _) |>.trans (List.prefix_append _ _)
      |>.trans (List.prefix_append _ _) |>.trans (List.prefix_append _ _)
      |>.trans (List.prefix_append _ _) |>.trans (List.prefix_append _ _)
      |>.trans (List.prefix_append _ _) |>.trans (List.prefix_append _ _)
      |>.trans (List.prefix_append _ _) |>.trans (List.prefix_append _ _)
  · unfold encodeBytes encodeFull
    exact List.suffix_append _ _

/-! ## Font encoding allocator

Model of the `Font` struct's mutable encoding state: the `encode` map
(rune to byte, an association list) and the `toUnicode` array (256 slots,
0 the unused sentinel).  The Windows-1252 base encoding is an external
collaborator (package `x/text/encoding/charmap`) and is passed as a
parameter `w : Nat → Option Nat` (rune to byte). -/

/-- Mutable encoding state of a `Font`. -/
structure FontEnc : Type where
  encode : List (Nat × Nat)
  toUnicode : List Nat
  deriving DecidableEq, Repr

/-- Freshly loaded font: empty map, all 256 slots unused. -/
def font0 : FontEnc := { encode := [], toUnicode := List.replicate 256 0 }

/-- Record both directions of a new assignment. -/
def assignCode (f : FontEnc) (r b : Nat) : FontEnc :=
  { encode := (r, b) :: f.encode, toUnicode := f.toUnicode.set b r }

/-- Downward scan `for i := hi; i > stop && b == 0; i--`: the first free
slot met counting down from `hi` to `stop + 1`, or 0 when none is free. -/
def scanDown (toU : List Nat) (stop : Nat) : Nat → Nat
  | 0 => 0
  | i + 1 =>
      if i + 1 ≤ stop then 0
      else if toU.getD (i + 1) 0 = 0 then i + 1
      else scanDown toU stop i

/-- Upward scan `for i := lo; i < 256 && b == 0; i++` over `n` slots: the
first free slot met counting up from `lo`, or 0 when none is free. -/
def scanUp (toU : List Nat) : Nat → Nat → Nat
  | _, 0 => 0
  | i, n + 1 => if toU.getD i 0 = 0 then i else scanUp toU (i + 1) n

/-- The three spill-slot scans of `encodeRune`, in source order: codes 31
down to 1; then, if none was found, 127 up to 255; then, only when the
result so far is exactly 1, 126 down to 33. -/
def spillSlot (toU : List Nat) : Nat :=
  let b1 := scanDown toU 0 31
  let b2 := if b1 = 0 then scanUp toU 127 129 else b1
  if b2 = 1 then
    let s := scanDown toU 32 126
    if s = 0 then b2 else s
  else b2

/-- Model of `Font.encodeRune`: cached code, else the Windows-1252 base
slot when it is still unused, else a spill slot, else failure. -/
def encodeRune (w : Nat → Option Nat) (f : FontEnc) (r : Nat) : (Nat × Bool) × FontEnc :=
  match alookup f.encode r with
  | some b => ((b, true), f)
  | none =>
      let base : Option Nat :=
        match w r with
        | some b => if f.toUnicode.getD b 0 = 0 then some b else none
        | none => none
      match base with
      | some b => ((b, true), assignCode f r b)
      | none =>
          let b := spillSlot f.toUnicode
          if b ≠ 0 then ((b, true), assignCode f r b) else ((0, false), f)

/-- Model of `Font.encodeString`: encode each rune in order, dropping the
runes for which `encodeRune` reports failure. -/
def encodeString (w : Nat → Option Nat) (f : FontEnc) : List Nat → List Nat × FontEnc
  | [] => ([], f)
  | r :: rs =>
      let p := encodeRune w f r
      let q := encodeString w p.2 rs
      (if p.1.2 then p.1.1 :: q.1 else q.1, q.2)

/-- State threading of a whole sequence of `encodeRune` calls. -/
def encodeRunes (w : Nat → Option Nat) (f : FontEnc) (rs : List Nat) : FontEnc :=
  rs.foldl (fun f r => (encodeRune w f r).2) f

/-- Trace of a sequence of `encodeRune` calls: the per-rune results. -/
def encodeResults (w : Nat → Option Nat) (f : FontEnc) :
    List Nat → List (Nat × Bool) × FontEnc
  | [] => ([], f)
  | r :: rs =>
      let p := encodeRune w f r
      let q := encodeResults w p.2 rs
      (p.1 :: q.1, q.2)

/-! ## Scan characterisations -/

theorem scanDown_free {toU : List Nat} {stop : Nat} :
    ∀ i, scanDown toU stop i ≠ 0 →
      stop < scanDown toU stop i ∧ scanDown toU stop i ≤ i ∧
        toU.getD (scanDown toU stop i) 0 = 0 := by
  intro i
  induction i with
  | zero => intro h; exact absurd rfl h
  | succ i ih =>
      intro h
      unfold scanDown at h ⊢
      by_cases h1 : i + 1 ≤ stop
      · rw [if_pos h1] at h; exact absurd rfl h
      · rw [if_neg h1] at h ⊢
        by_cases h2 : toU.getD (i + 1) 0 = 0
        · rw [if_pos h2] at h ⊢
          exact ⟨by omega, le_refl _, h2⟩
        · rw [if_neg h2] at h ⊢
          obtain ⟨ha, hb, hc⟩ := ih h
          exact ⟨ha, by omega, hc⟩

theorem scanDown_max {toU : List Nat} {stop : Nat} :
    ∀ i k, stop < k → k ≤ i → toU.getD k 0 = 0 → k ≤ scanDown toU stop i := by
  intro i
  induction i with
  | zero => intro k h1 h2 _; omega
  | succ i ih =>
      intro k h1 h2 h3
      unfold scanDown
      by_cases hs : i + 1 ≤ stop
      · omega
      · rw [if_neg hs]
        by_cases hf : toU.getD (i + 1) 0 = 0
        · rw [if_pos hf]; omega
        · rw [if_neg hf]
          have hk : k ≤ i := by
            rcases Nat.lt_or_ge k (i + 1) with hlt | hge
            · omega
            · have : k = i + 1 := by omega
              subst this
              exact absurd h3 hf
          exact ih k h1 hk h3

theorem scanDown_eq_zero {toU : List Nat} {stop i : Nat}
    (h : ∀ k, stop < k → k ≤ i → toU.getD k 0 ≠ 0) : scanDown toU stop i = 0 := by
  by_contra hne
  obtain ⟨h1, h2, h3⟩ := scanDown_free i hne
  exact h _ h1 h2 h3

theorem scanDown_eq_of_isGreatest {toU : List Nat} {stop i b : Nat}
    (h : IsGreatest {k | stop < k ∧ k ≤ i ∧ toU.getD k 0 = 0} b) :
    scanDown toU stop i = b := by
  obtain ⟨⟨hb1, hb2, hb3⟩, hub⟩ := h
  have hle : b ≤ scanDown toU stop i := scanDown_max i b hb1 hb2 hb3
  have hne : scanDown toU stop i ≠ 0 := by omega
  obtain ⟨h1, h2, h3⟩ := scanDown_free i hne
  have := hub ⟨h1, h2, h3⟩
  omega

theorem scanUp_free {toU : List Nat} :
    ∀ n i, scanUp toU i n ≠ 0 → (i = 0 ∨ i ≤ scanUp toU i n) ∧
      scanUp toU i n < i + n ∧ toU.getD (scanUp toU i n) 0 = 0 ∧ i ≤ scanUp toU i n := by
  intro n
  induction n with
  | zero => intro i h; exact absurd rfl h
  | succ n ih =>
      intro i h
      unfold scanUp at h ⊢
      by_cases hf : toU.getD i 0 = 0
      · rw [if_pos hf] at h ⊢
        exact ⟨Or.inr (le_refl i), by omega, hf, le_refl i⟩
      · rw [if_neg hf] at h ⊢
        obtain ⟨_, hb, hc, hd⟩ := ih (i + 1) h
        exact ⟨Or.inr (by omega), by omega, hc, by omega⟩

theorem scanUp_le {toU : List Nat} :
    ∀ n i k, 0 < i → i ≤ k → k < i + n → toU.getD k 0 = 0 →
      scanUp toU i n ≠ 0 ∧ scanUp toU i n ≤ k := by
  intro n
  induction n with
  | zero => intro i k _ _ h2 _; omega
  | succ n ih =>
      intro i k hi h1 h2 h3
      unfold scanUp
      by_cases hf : toU.getD i 0 = 0
      · rw [if_pos hf]
        exact ⟨by omega, h1⟩
      · rw [if_neg hf]
        have hik : i ≠ k := by
          intro he; subst he; exact hf h3
        exact ih (i + 1) k (by omega) (by omega) (by omega) h3

theorem scanUp_eq_of_isLeast {toU : List Nat} {i n b : Nat} (hi : 0 < i)
    (h : IsLeast {k | i ≤ k ∧ k < i + n ∧ toU.getD k 0 = 0} b) :
    scanUp toU i n = b := by
  obtain ⟨⟨hb1, hb2, hb3⟩, hlb⟩ := h
  obtain ⟨hne, hle⟩ := scanUp_le n i b hi hb1 hb2 hb3
  obtain ⟨_, h2, h3, h4⟩ := scanUp_free n i hne
  have := hlb ⟨h4, h2, h3⟩
  omega

theorem scanUp_eq_zero {toU : List Nat} {i n : Nat}
    (h : ∀ k, i ≤ k → k < i + n → toU.getD k 0 ≠ 0) : scanUp toU i n = 0 := by
  by_contra hne
  obtain ⟨_, h2, h3, h4⟩ := scanUp_free n i hne
  exact h _ h4 h2 h3

theorem encodeRune_spill {w : Nat → Option Nat} {f : FontEnc} {r : Nat}
    (hnew : alookup f.encode r = none)
    (hbase : ∀ b, w r = some b → f.toUnicode.getD b 0 ≠ 0) :
    encodeRune w f r =
      if spillSlot f.toUnicode ≠ 0 then
        ((spillSlot f.toUnicode, true), assignCode f r (spillSlot f.toUnicode))
      else ((0, false), f) := by
  unfold encodeRune
  rw [hnew]
  cases hw : w r with
  | none => rfl
  | some c =>
      have := hbase c hw
      simp only [this, if_neg, if_false]

/-- Claim C4: when `encodeRune` must allocate a spill slot (the rune has
no assigned code and its Windows-1252 base slot is unavailable), the slot
chosen is the highest unused code in [1,31]; only when that whole range
is occupied is it the lowest unused code in [127,255]; and the third scan
of codes 126 down to 33 decides the result only when the first scan landed
exactly on code 1, in which case the slot is the highest unused code in
[33,126] (or 1 itself when that range is fully occupied). -/
theorem C4_spill_slot_priority (w : Nat → Option Nat) (f : FontEnc) (r : Nat)
    (hnew : alookup f.encode r = none)
    (hbase : ∀ b, w r = some b → f.toUnicode.getD b 0 ≠ 0) :
    (∀ b, b ≠ 1 → IsGreatest {k | 0 < k ∧ k ≤ 31 ∧ f.toUnicode.getD k 0 = 0} b →
        (encodeRune w f r).1 = (b, true)) ∧
    ((∀ k, 0 < k → k ≤ 31 → f.toUnicode.getD k 0 ≠ 0) →
      ∀ b, IsLeast {k | 127 ≤ k ∧ k < 256 ∧ f.toUnicode.getD k 0 = 0} b →
        (encodeRune w f r).1 = (b, true)) ∧
    (IsGreatest {k | 0 < k ∧ k ≤ 31 ∧ f.toUnicode.getD k 0 = 0} 1 →
      ((∀ k, 32 < k → k ≤ 126 → f.toUnicode.getD k 0 ≠ 0) →
          (encodeRune w f r).1 = (1, true)) ∧
      (∀ b, IsGreatest {k | 32 < k ∧ k ≤ 126 ∧ f.toUnicode.getD k 0 = 0} b →
          (encodeRune w f r).1 = (b, true))) := by
  rw [encodeRune_spill hnew hbase]
  refine ⟨?_, ?_, ?_⟩
  · intro b hb1 hg
    have h1 : scanDown f.toUnicode 0 31 = b := scanDown_eq_of_isGreatest hg
    have hb0 : b ≠ 0 := by
      have := hg.1.1
      omega
    have hs : spillSlot f.toUnicode = b := by
      simp [spillSlot, h1, hb0, hb1]
    rw [hs, if_pos hb0]
  · intro hnone b hl
    have h1 : scanDown f.toUnicode 0 31 = 0 :=
      scanDown_eq_zero (fun k hk1 hk2 => hnone k hk1 hk2)
    have h2 : scanUp f.toUnicode 127 129 = b := by
      apply scanUp_eq_of_isLeast (by omega)
      have h256 : (127 : Nat) + 129 = 256 := by omega
      rw [h256]
      exact hl
    have hb127 : 127 ≤ b := hl.1.1
    have hs : spillSlot f.toUnicode = b := by
      have hbne1 : b ≠ 1 := by omega
      simp [spillSlot, h1, h2, hbne1]
    rw [hs, if_pos (show b ≠ 0 by omega)]
  · intro hg1
    have h1 : scanDown f.toUnicode 0 31 = 1 := scanDown_eq_of_isGreatest hg1
    constructor
    · intro hnone
      have h3 : scanDown f.toUnicode 32 126 = 0 :=
        scanDown_eq_zero (fun k hk1 hk2 => hnone k hk1 hk2)
      have hs : spillSlot f.toUnicode = 1 := by
        simp [spillSlot, h1, h3]
      rw [hs, if_pos (show (1 : Nat) ≠ 0 by decide)]
    · intro b hg3
      have h3 : scanDown f.toUnicode 32 126 = b := scanDown_eq_of_isGreatest hg3
      have hb : 32 < b := hg3.1.1
      have hs : spillSlot f.toUnicode = b := by
        have hbne0 : b ≠ 0 := by omega
        simp [spillSlot, h1, h3, hbne0]
      rw [hs, if_pos (show b ≠ 0 by omega)]

/-- Concrete Windows-1252 fragment used to instantiate the allocator
theorems: ASCII codes map to themselves, everything else is absent. -/
def wAscii : Nat → Option Nat := fun r => if r < 128 then some r else none

/-- Font state whose slot 65 is occupied by another rune, with the whole
range [1,31] still free. -/
def fBusy65 : FontEnc :=
  { encode := [(1000, 65)], toUnicode := (List.replicate 256 0).set 65 1000 }

theorem C4_witness : (encodeRune wAscii fBusy65 65).1 = (31, true) :=
  (C4_spill_slot_priority wAscii fBusy65 65 (by decide)
      (by intro b h; simp [wAscii] at h; subst h; decide)).1
    31 (by decide) ⟨by decide, fun k hk => hk.2.1⟩

/-! ## Consistency of the encoding table

The invariant ties the `encode` map to the `toUnicode` array: every
assignment `r ↦ b` is mirrored by `toUnicode[b] = r` (with the rune 0 /
code 0 corner handled separately, since 0 is also the unused sentinel).
The hypotheses on the base encoding `w` hold of the real Windows-1252
table: it produces bytes, only rune 0 maps to byte 0, and rune 0 does map
to byte 0. -/

/-- Assumptions on the external Windows-1252 table. -/
def W1252OK (w : Nat → Option Nat) : Prop :=
  (∀ r b, w r = some b → b < 256) ∧ (∀ r, w r = some 0 → r = 0) ∧ w 0 = some 0

/-- Invariant of the font's mutable encoding state. -/
def EncInv (f : FontEnc) : Prop :=
  f.toUnicode.length = 256 ∧ f.toUnicode.getD 0 0 = 0 ∧
    ∀ r b, alookup f.encode r = some b →
      b < 256 ∧ ((r = 0 ∧ b = 0) ∨ (r ≠ 0 ∧ f.toUnicode.getD b 0 = r))

theorem font0_inv : EncInv font0 := by
  refine ⟨List.length_replicate 256 0, by decide, ?_⟩
  intro r b h
  exact Option.noConfusion h

theorem getD_set_self {l : List Nat} {i a d : Nat} (h : i < l.length) :
    (l.set i a).getD i d = a := by
  rw [List.getD_eq_getElem?_getD, List.getElem?_set_self h]
  rfl

theorem getD_set_other {l : List Nat} {i j a d : Nat} (h : i ≠ j) :
    (l.set i a).getD j d = l.getD j d := by
  rw [List.getD_eq_getElem?_getD, List.getElem?_set_ne h, ← List.getD_eq_getElem?_getD]

theorem spillSlot_free {toU : List Nat} (h : spillSlot toU ≠ 0) :
    spillSlot toU < 256 ∧ toU.getD (spillSlot toU) 0 = 0 := by
  by_cases h1 : scanDown toU 0 31 = 0
  · by_cases h2 : scanUp toU 127 129 = 0
    · have heq : spillSlot toU = 0 := by simp [spillSlot, h1, h2]
      exact absurd heq h
    · obtain ⟨_, hb, hc, hd⟩ := scanUp_free 129 127 h2
      have hne1 : scanUp toU 127 129 ≠ 1 := by omega
      have heq : spillSlot toU = scanUp toU 127 129 := by
        simp [spillSlot, h1, hne1]
      rw [heq]
      exact ⟨by omega, hc⟩
  · obtain ⟨ha1, hb1, hc1⟩ := scanDown_free 31 h1
    by_cases h2 : scanDown toU 0 31 = 1
    · by_cases h3 : scanDown toU 32 126 = 0
      · have heq : spillSlot toU = 1 := by simp [spillSlot, h2, h3]
        rw [heq]
        rw [h2] at hc1
        exact ⟨by omega, hc1⟩
      · obtain ⟨ha3, hb3, hc3⟩ := scanDown_free 126 h3
        have heq : spillSlot toU = scanDown toU 32 126 := by
          simp [spillSlot, h2, h3]
        rw [heq]
        exact ⟨by omega, hc3⟩
    · have heq : spillSlot toU = scanDown toU 0 31 := by
        simp [spillSlot, h1, h2]
      rw [heq]
      exact ⟨by omega, hc1⟩

theorem assignCode_inv {f : FontEnc} {r b : Nat} (hinv : EncInv f)
    (hb : b < 256) (hfree : f.toUnicode.getD b 0 = 0)
    (hrb : r = 0 → b = 0) (hbr : b = 0 → r = 0) :
    EncInv (assignCode f r b) := by
  obtain ⟨hlen, h0, hent⟩ := hinv
  refine ⟨by simp [assignCode, hlen], ?_, ?_⟩
  · show (f.toUnicode.set b r).getD 0 0 = 0
    by_cases hb0 : b = 0
    · subst hb0
      have hr0 : r = 0 := hbr rfl
      subst hr0
      rw [getD_set_self (by omega)]
    · rw [getD_set_other hb0]
      exact h0
  · intro r' b' hl
    show b' < 256 ∧ ((r' = 0 ∧ b' = 0) ∨ (r' ≠ 0 ∧ (f.toUnicode.set b r).getD b' 0 = r'))
    rw [show (assignCode f r b).encode = (r, b) :: f.encode from rfl, alookup_cons] at hl
    by_cases hrr : r = r'
    · subst hrr
      rw [if_pos rfl, Option.some.injEq] at hl
      subst hl
      refine ⟨hb, ?_⟩
      by_cases hr0 : r = 0
      · exact Or.inl ⟨hr0, hrb hr0⟩
      · refine Or.inr ⟨hr0, ?_⟩
        exact getD_set_self (by omega)
    · rw [if_neg hrr] at hl
      obtain ⟨hb', hdisj⟩ := hent r' b' hl
      refine ⟨hb', ?_⟩
      rcases hdisj with ⟨h1, h2⟩ | ⟨h1, h2⟩
      · exact Or.inl ⟨h1, h2⟩
      · refine Or.inr ⟨h1, ?_⟩
        by_cases hbb : b = b'
        · subst hbb
          rw [hfree] at h2
          exact absurd h2.symm h1
        · rw [getD_set_other hbb]
          exact h2

theorem encodeRune_cached {w : Nat → Option Nat} {f : FontEnc} {r b : Nat}
    (h : alookup f.encode r = some b) : encodeRune w f r = ((b, true), f) := by
  unfold encodeRune
  rw [h]

/-- The allocator can do nothing for `r` in state `f`: no cached code, the
base slot is occupied (or absent), and every spill range is full. -/
def ExhaustedFor (w : Nat → Option Nat) (f : FontEnc) (r : Nat) : Prop :=
  alookup f.encode r = none ∧
    (∀ c, w r = some c → f.toUnicode.getD c 0 ≠ 0) ∧
    spillSlot f.toUnicode = 0

theorem encodeRune_cases (w : Nat → Option Nat) (f : FontEnc) (r : Nat) :
    (∃ b, alookup f.encode r = some b ∧ encodeRune w f r = ((b, true), f)) ∨
      (alookup f.encode r = none ∧
        ((∃ b, encodeRune w f r = ((b, true), assignCode f r b) ∧
            f.toUnicode.getD b 0 = 0) ∨
          (encodeRune w f r = ((0, false), f) ∧ ExhaustedFor w f r))) := by
  unfold encodeRune
  cases hc : alookup f.encode r with
  | some b => exact Or.inl ⟨b, rfl, rfl⟩
  | none =>
      refine Or.inr ⟨rfl, ?_⟩
      cases hw : w r with
      | some c =>
          have hshape : ∀ z : (Nat × Bool) × FontEnc,
              (match (if f.toUnicode.getD c 0 = 0 then some c else none) with
                | some b => ((b, true), assignCode f r b)
                | none =>
                    if spillSlot f.toUnicode ≠ 0 then
                      ((spillSlot f.toUnicode, true),
                        assignCode f r (spillSlot f.toUnicode))
                    else ((0, false), f)) = z →
              ((∃ b, z = ((b, true), assignCode f r b) ∧ f.toUnicode.getD b 0 = 0) ∨
                (z = ((0, false), f) ∧ ExhaustedFor w f r)) := by
            intro z hz
            by_cases hfree : f.toUnicode.getD c 0 = 0
            · rw [if_pos hfree] at hz
              exact Or.inl ⟨c, hz.symm, hfree⟩
            · rw [if_neg hfree] at hz
              by_cases hsp : spillSlot f.toUnicode = 0
              · rw [if_neg (show ¬spillSlot f.toUnicode ≠ 0 by omega)] at hz
                refine Or.inr ⟨hz.symm, hc, ?_, hsp⟩
                intro c' hc'
                rw [hw] at hc'
                injection hc' with he
                rw [← he]
                exact hfree
              · rw [if_pos hsp] at hz
                exact Or.inl ⟨spillSlot f.toUnicode, hz.symm, (spillSlot_free hsp).2⟩
          exact hshape _ rfl
      | none =>
          by_cases hsp : spillSlot f.toUnicode = 0
          · refine Or.inr ⟨?_, hc, ?_, hsp⟩
            · show (if spillSlot f.toUnicode ≠ 0 then
                  ((spillSlot f.toUnicode, true), assignCode f r (spillSlot f.toUnicode))
                else ((0, false), f)) = ((0, false), f)
              rw [if_neg (show ¬spillSlot f.toUnicode ≠ 0 by omega)]
            · intro c' hc'
              rw [hw] at hc'
              exact Option.noConfusion hc'
          · refine Or.inl ⟨spillSlot f.toUnicode, ?_, (spillSlot_free hsp).2⟩
            show (if spillSlot f.toUnicode ≠ 0 then
                ((spillSlot f.toUnicode, true), assignCode f r (spillSlot f.toUnicode))
              else ((0, false), f)) =
              ((spillSlot f.toUnicode, true), assignCode f r (spillSlot f.toUnicode))
            rw [if_pos hsp]

theorem encodeRune_mono {w : Nat → Option Nat} {f : FontEnc} {r r' b' : Nat}
    (h : alookup f.encode r' = some b') :
    alookup (encodeRune w f r).2.encode r' = some b' := by
  rcases encodeRune_cases w f r with ⟨b, _, he⟩ | ⟨hn, ⟨b, he, _⟩ | ⟨he, _⟩⟩
  · rw [he]; exact h
  · rw [he]
    have hne : r ≠ r' := by
      intro heq; subst heq; rw [hn] at h; exact Option.noConfusion h
    show alookup ((r, b) :: f.encode) r' = some b'
    rw [alookup_cons, if_neg hne]
    exact h
  · rw [he]; exact h

theorem encodeRune_idem (w : Nat → Option Nat) (f : FontEnc) (r : Nat) :
    (encodeRune w (encodeRune w f r).2 r).1 = (encodeRune w f r).1 := by
  rcases encodeRune_cases w f r with ⟨b, hc, he⟩ | ⟨hn, ⟨b, he, _⟩ | ⟨he, _⟩⟩
  · rw [he, encodeRune_cached hc]
  · rw [he]
    have hreg : alookup (assignCode f r b).encode r = some b := by
      show alookup ((r, b) :: f.encode) r = some b
      rw [alookup_cons, if_pos rfl]
    rw [encodeRune_cached hreg]
  · rw [he, he]

theorem encodeRune_base_taken {w : Nat → Option Nat} {f : FontEnc} {r c : Nat}
    (hn : alookup f.encode r = none) (hw : w r = some c)
    (hfree : f.toUnicode.getD c 0 = 0) :
    encodeRune w f r = ((c, true), assignCode f r c) := by
  unfold encodeRune
  rw [hn, hw]
  show (match (if f.toUnicode.getD c 0 = 0 then some c else none) with
    | some b => ((b, true), assignCode f r b)
    | none =>
        if spillSlot f.toUnicode ≠ 0 then
          ((spillSlot f.toUnicode, true), assignCode f r (spillSlot f.toUnicode))
        else ((0, false), f)) = ((c, true), assignCode f r c)
  rw [if_pos hfree]

theorem encodeRune_inv {w : Nat → Option Nat} (hW : W1252OK w) {f : FontEnc}
    (hinv : EncInv f) (r : Nat) : EncInv (encodeRune w f r).2 := by
  cases hc : alookup f.encode r with
  | some b => rw [encodeRune_cached hc]; exact hinv
  | none =>
      have hr0 : ∀ c, w r = some c → ¬f.toUnicode.getD c 0 = 0 → r ≠ 0 := by
        intro c hw hfree he
        subst he
        rw [hW.2.2] at hw
        injection hw with hce
        rw [← hce] at hfree
        exact hfree hinv.2.1
      have hspill : ∀ hr : r ≠ 0,
          EncInv (if spillSlot f.toUnicode ≠ 0 then
              ((spillSlot f.toUnicode, true), assignCode f r (spillSlot f.toUnicode))
            else ((0, false), f)).2 := by
        intro hr
        by_cases hsp : spillSlot f.toUnicode = 0
        · rw [if_neg (by omega)]
          exact hinv
        · rw [if_pos hsp]
          obtain ⟨hlt, hfree⟩ := spillSlot_free hsp
          exact assignCode_inv hinv hlt hfree (fun h0 => absurd h0 hr)
            (fun hb0 => absurd hb0 hsp)
      cases hw : w r with
      | some c =>
          by_cases hfree : f.toUnicode.getD c 0 = 0
          · rw [encodeRune_base_taken hc hw hfree]
            refine assignCode_inv hinv (hW.1 r c hw) hfree ?_ ?_
            · intro he
              subst he
              rw [hW.2.2] at hw
              injection hw with hce
              exact hce.symm
            · intro hc0
              subst hc0
              exact hW.2.1 r hw
          · rw [encodeRune_spill hc
              (by intro b hb; rw [hw] at hb; injection hb with he; rw [← he]; exact hfree)]
            exact hspill (hr0 c hw hfree)
      | none =>
          have hr : r ≠ 0 := by
            intro he
            subst he
            rw [hW.2.2] at hw
            exact Option.noConfusion hw
          rw [encodeRune_spill hc (by intro b hb; rw [hw] at hb; exact Option.noConfusion hb)]
          exact hspill hr

theorem encodeRunes_inv {w : Nat → Option Nat} (hW : W1252OK w) {rs : List Nat} :
    ∀ {f : FontEnc}, EncInv f → EncInv (encodeRunes w f rs) := by
  induction rs with
  | nil => intro f h; exact h
  | cons r rs ih =>
      intro f h
      exact ih (encodeRune_inv hW h r)

theorem encodeRunes_mono {w : Nat → Option Nat} {rs : List Nat} :
    ∀ {f : FontEnc} {r' b' : Nat}, alookup f.encode r' = some b' →
      alookup (encodeRunes w f rs).encode r' = some b' := by
  induction rs with
  | nil => intro f r' b' h; exact h
  | cons r rs ih =>
      intro f r' b' h
      exact ih (encodeRune_mono h)

theorem encInv_injective {f : FontEnc} (hinv : EncInv f) :
    ∀ r1 r2 b, alookup f.encode r1 = some b → alookup f.encode r2 = some b → r1 = r2 := by
  intro r1 r2 b h1 h2
  obtain ⟨_, hd1⟩ := hinv.2.2 r1 b h1
  obtain ⟨_, hd2⟩ := hinv.2.2 r2 b h2
  rcases hd1 with ⟨he1, hb1⟩ | ⟨he1, hb1⟩ <;> rcases hd2 with ⟨he2, hb2⟩ | ⟨he2, hb2⟩
  · rw [he1, he2]
  · subst hb1
    rw [hinv.2.1] at hb2
    exact absurd hb2.symm he2
  · subst hb2
    rw [hinv.2.1] at hb1
    exact absurd hb1.symm he1
  · rw [← hb1, hb2]

/-- Claim C5: over every sequence of `encodeRune` calls on one font
resource, no byte code is ever assigned to two different runes (each code
maps to at most one rune, each rune to at most one code, and assignments
are never changed once made), and `encodeRune` is idempotent: calling it
twice with the same rune returns the same result. -/
theorem C5_encoding_table_invariants (w : Nat → Option Nat) (hW : W1252OK w)
    (rs : List Nat) :
    (∀ r1 r2 b, alookup (encodeRunes w font0 rs).encode r1 = some b →
        alookup (encodeRunes w font0 rs).encode r2 = some b → r1 = r2) ∧
      (∀ r b rs', alookup (encodeRunes w font0 rs).encode r = some b →
        alookup (encodeRunes w (encodeRunes w font0 rs) rs').encode r = some b) ∧
      (∀ r, (encodeRune w (encodeRune w (encodeRunes w font0 rs) r).2 r).1
          = (encodeRune w (encodeRunes w font0 rs) r).1) := by
  have hinv : EncInv (encodeRunes w font0 rs) := encodeRunes_inv hW font0_inv
  refine ⟨encInv_injective hinv, ?_, ?_⟩
  · intro r b rs' h
    exact encodeRunes_mono h
  · intro r
    exact encodeRune_idem w (encodeRunes w font0 rs) r

theorem wAscii_ok : W1252OK wAscii := by
  refine ⟨?_, ?_, rfl⟩
  · intro r b h
    unfold wAscii at h
    by_cases hr : r < 128
    · rw [if_pos hr] at h
      injection h with he
      omega
    · rw [if_neg hr] at h
      exact Option.noConfusion h
  · intro r h
    unfold wAscii at h
    by_cases hr : r < 128
    · rw [if_pos hr] at h
      exact Option.some.inj h
    · rw [if_neg hr] at h
      exact Option.noConfusion h

theorem C5_witness :
    (encodeRune wAscii (encodeRune wAscii (encodeRunes wAscii font0 [65, 66]) 65).2 65).1
      = (encodeRune wAscii (encodeRunes wAscii font0 [65, 66]) 65).1 :=
  (C5_encoding_table_invariants wAscii wAscii_ok [65, 66]).2.2 65

/-- Claim C9: `encodeString` returns exactly the concatenation, in order,
of the byte codes of those runes for which `encodeRune` succeeds, silently
omitting every rune for which `encodeRune` returns `ok = false`; it is a
total function (no error is surfaced to the caller), and its final state
is that of running the `encodeRune` calls in order. -/
theorem C9_encodeString_drops_failures (w : Nat → Option Nat) (f : FontEnc)
    (s : List Nat) :
    (encodeString w f s).1 =
        ((encodeResults w f s).1.filter (fun p => p.2)).map (fun p => p.1) ∧
      (encodeString w f s).2 = (encodeResults w f s).2 := by
  induction s generalizing f with
  | nil => exact ⟨rfl, rfl⟩
  | cons r rs ih =>
      obtain ⟨ih1, ih2⟩ := ih (encodeRune w f r).2
      unfold encodeString encodeResults
      by_cases hok : (encodeRune w f r).1.2 = true
      · constructor
        · simp only [hok, if_true, List.filter_cons, List.map_cons, ih1]
        · exact ih2
      · have hok2 : (encodeRune w f r).1.2 = false := by
          cases hc : (encodeRune w f r).1.2
          · rfl
          · exact absurd hc hok
        constructor
        · simp only [hok2, List.filter_cons, ih1, Bool.false_eq_true, if_false]
        · exact ih2

/-! ## Quadratic-to-cubic elevation in the glyph transcriber

`type3Glyph.writeTo` computes the elevated control points in 26.6
fixed-point arithmetic (`fixed.Int26_6`): `current.X + (args[0].X -
current.X) * 2 / 3` uses Go's truncating integer division, and the
operands are then emitted through `Round()`, which is `(x + 32) >> 6`,
an arithmetic shift — a floor division by 64. -/

/-- A 26.6 fixed-point point (64 units per glyph-space unit). -/
structure FixPt : Type where
  x : Int
  y : Int
  deriving DecidableEq, Repr

/-- One coordinate of `a + (c - a)*2/3` with truncating division. -/
def elev (a c : Int) : Int := a + Int.tdiv ((c - a) * 2) 3

/-- First elevated control point, from the current point and the
quadratic control point `args[0]`. -/
def quadControl1 (current c0 : FixPt) : FixPt :=
  ⟨elev current.x c0.x, elev current.y c0.y⟩

/-- Second elevated control point, from the end point `args[1]` and the
quadratic control point `args[0]`. -/
def quadControl2 (e c0 : FixPt) : FixPt :=
  ⟨elev e.x c0.x, elev e.y c0.y⟩

/-- Model of `fixed.Int26_6.Round`: `(x + 0x20) >> 6`. -/
def round26_6 (v : Int) : Int := Int.fdiv (v + 32) 64

/-- Operands of the emitted curveto instruction for a quadratic segment
(`x1 y1 x2 y2 x3 y3 c`, with the Y axis negated after rounding). -/
def quadCurveOps (p c0 e : FixPt) : List Int :=
  [round26_6 (quadControl1 p c0).x, -round26_6 (quadControl1 p c0).y,
   round26_6 (quadControl2 e c0).x, -round26_6 (quadControl2 e c0).y,
   round26_6 e.x, -round26_6 e.y]

/-- Exact degree-raising value `(a + (2/3)(c - a))`, in glyph-space
units (the fixed-point inputs are 64ths of a glyph unit). -/
def exactElev (a c : Int) : ℚ := ((a : ℚ) + 2 / 3 * ((c : ℚ) - (a : ℚ))) / 64

theorem tmod3_bound (d : Int) : -2 ≤ d.tmod 3 ∧ d.tmod 3 ≤ 2 := by
  rcases le_or_lt 0 d with hd | hd
  · have h1 : 0 ≤ d.tmod 3 := Int.tmod_nonneg 3 hd
    have h2 : d.tmod 3 < 3 := Int.tmod_lt_of_pos d (by decide)
    omega
  · have h0 : 0 ≤ -d := by omega
    have h1 : 0 ≤ (-d).tmod 3 := Int.tmod_nonneg 3 h0
    have h2 : (-d).tmod 3 < 3 := Int.tmod_lt_of_pos (-d) (by decide)
    have h3 : d.tmod 3 = -((-d).tmod 3) := by
      rw [Int.tmod_def, Int.tmod_def, Int.neg_tdiv]
      ring
    omega

theorem elev_round_error (a c : Int) :
    |((round26_6 (elev a c) : ℚ)) - exactElev a c| ≤ 33 / 64 := by
  have hdq : 3 * (Int.tdiv ((c - a) * 2) 3) + Int.tmod ((c - a) * 2) 3 = (c - a) * 2 :=
    Int.tdiv_add_tmod ((c - a) * 2) 3
  obtain ⟨hr1, hr2⟩ := tmod3_bound ((c - a) * 2)
  have hfd : round26_6 (elev a c) = (a + Int.tdiv ((c - a) * 2) 3 + 32) / 64 := by
    unfold round26_6 elev
    rw [Int.fdiv_eq_ediv _ (by decide)]
  have hkey : -99 ≤ 192 * ((a + Int.tdiv ((c - a) * 2) 3 + 32) / 64)
        - (3 * a + (c - a) * 2) ∧
      192 * ((a + Int.tdiv ((c - a) * 2) 3 + 32) / 64) - (3 * a + (c - a) * 2) ≤ 99 := by
    omega
  have hcast : ((round26_6 (elev a c) : ℚ)) - exactElev a c
      = ((192 * ((a + Int.tdiv ((c - a) * 2) 3 + 32) / 64)
          - (3 * a + (c - a) * 2) : Int) : ℚ) / 192 := by
    rw [hfd]
    unfold exactElev
    push_cast
    ring
  rw [hcast, abs_div]
  have h192 : |(192 : ℚ)| = 192 := by norm_num
  rw [h192]
  have h99 : |((192 * ((a + Int.tdiv ((c - a) * 2) 3 + 32) / 64)
      - (3 * a + (c - a) * 2) : Int) : ℚ)| ≤ 99 := by
    rw [← Int.cast_abs]
    have habs : |192 * ((a + Int.tdiv ((c - a) * 2) 3 + 32) / 64)
        - (3 * a + (c - a) * 2)| ≤ 99 := abs_le.mpr ⟨hkey.1, hkey.2⟩
    exact_mod_cast habs
  calc |((192 * ((a + Int.tdiv ((c - a) * 2) 3 + 32) / 64)
        - (3 * a + (c - a) * 2) : Int) : ℚ)| / 192
      ≤ 99 / 192 := (div_le_div_iff_of_pos_right (by norm_num)).mpr h99
    _ = 33 / 64 := by norm_num

/-- Claim C6 (amended): the emitted control points follow the
degree-raising formula only up to 26.6 fixed-point truncation and
rounding to whole glyph units — each emitted coordinate is within 33/64
(≈ 0.52) of a glyph unit of the algebraic value `P + (2/3)(C − P)` resp.
`E + (2/3)(C − E)` (Y negated on both sides), not within 1e-6. -/
theorem C6_quad_elevation_fixed_point (p c0 e : FixPt) :
    |((round26_6 (quadControl1 p c0).x : ℚ)) - exactElev p.x c0.x| ≤ 33 / 64 ∧
      |((-round26_6 (quadControl1 p c0).y : Int) : ℚ) - (-exactElev p.y c0.y)| ≤ 33 / 64 ∧
      |((round26_6 (quadControl2 e c0).x : ℚ)) - exactElev e.x c0.x| ≤ 33 / 64 ∧
      |((-round26_6 (quadControl2 e c0).y : Int) : ℚ) - (-exactElev e.y c0.y)| ≤ 33 / 64 := by
  have hy1 := elev_round_error p.y c0.y
  have hy2 := elev_round_error e.y c0.y
  refine ⟨elev_round_error p.x c0.x, ?_, elev_round_error e.x c0.x, ?_⟩
  · have he : ((-round26_6 (quadControl1 p c0).y : Int) : ℚ) - (-exactElev p.y c0.y)
        = -(((round26_6 (elev p.y c0.y) : ℚ)) - exactElev p.y c0.y) := by
      push_cast
      show -(round26_6 (elev p.y c0.y) : ℚ) - -exactElev p.y c0.y = _
      ring
    rw [he, abs_neg]
    exact hy1
  · have he : ((-round26_6 (quadControl2 e c0).y : Int) : ℚ) - (-exactElev e.y c0.y)
        = -(((round26_6 (elev e.y c0.y) : ℚ)) - exactElev e.y c0.y) := by
      push_cast
      show -(round26_6 (elev e.y c0.y) : ℚ) - -exactElev e.y c0.y = _
      ring
    rw [he, abs_neg]
    exact hy2

/-- Claim C6 (counterexample): for the quadratic segment from P = (0,0)
with control C = (64,0) — one glyph unit — the emitted first control
x-coordinate is 1 while the algebraic value is 2/3, a deviation of 1/3,
far beyond the claimed 1e-6 tolerance. -/
theorem C6_counterexample :
    1 / 1000000 <
      |((round26_6 (quadControl1 ⟨0, 0⟩ ⟨64, 0⟩).x : ℚ)) - exactElev 0 64| := by
  have h1 : round26_6 (quadControl1 ⟨0, 0⟩ ⟨64, 0⟩).x = 1 := by decide
  rw [h1]
  unfold exactElev
  rw [abs_of_pos (by norm_num)]
  norm_num

/-! ## Failure of the allocator is permanent

Once `encodeRune` cannot place a rune, later calls (for any runes) cannot
make it placeable: slots only fill up, and the rune's entry is only
created by its own successful call. -/

theorem encodeRune_exhausted {w : Nat → Option Nat} {f : FontEnc} {r : Nat}
    (h : ExhaustedFor w f r) : encodeRune w f r = ((0, false), f) := by
  rw [encodeRune_spill h.1 h.2.1]
  rw [if_neg (show ¬spillSlot f.toUnicode ≠ 0 by rw [h.2.2]; omega)]

theorem encodeRune_occupied_mono {w : Nat → Option Nat} {f : FontEnc} (r' : Nat) :
    ∀ b, f.toUnicode.getD b 0 ≠ 0 → (encodeRune w f r').2.toUnicode.getD b 0 ≠ 0 := by
  intro b hb
  rcases encodeRune_cases w f r' with ⟨b', _, he⟩ | ⟨hn, ⟨b', he, hfree⟩ | ⟨he, _⟩⟩
  · rw [he]; exact hb
  · rw [he]
    show (f.toUnicode.set b' r').getD b 0 ≠ 0
    have hne : b' ≠ b := by
      intro heq
      rw [heq] at hfree
      exact hb hfree
    rw [getD_set_other hne]
    exact hb
  · rw [he]; exact hb

theorem spillSlot_ne_zero_of_scan1 {toU : List Nat}
    (h : scanDown toU 0 31 ≠ 0) : spillSlot toU ≠ 0 := by
  obtain ⟨ha, hb, hc⟩ := scanDown_free 31 h
  by_cases h1 : scanDown toU 0 31 = 1
  · by_cases h3 : scanDown toU 32 126 = 0
    · have heq : spillSlot toU = 1 := by simp [spillSlot, h1, h3]
      rw [heq]; omega
    · obtain ⟨ha3, _, _⟩ := scanDown_free 126 h3
      have heq : spillSlot toU = scanDown toU 32 126 := by simp [spillSlot, h1, h3]
      rw [heq]; omega
  · have heq : spillSlot toU = scanDown toU 0 31 := by simp [spillSlot, h, h1]
    rw [heq]; exact h

theorem spillSlot_zero_occupied {toU : List Nat} (h : spillSlot toU = 0) :
    (∀ k, 0 < k → k ≤ 31 → toU.getD k 0 ≠ 0) ∧
      (∀ k, 127 ≤ k → k < 256 → toU.getD k 0 ≠ 0) := by
  have hs1 : scanDown toU 0 31 = 0 := by
    by_contra hne
    exact (spillSlot_ne_zero_of_scan1 hne) h
  have hs2 : scanUp toU 127 129 = 0 := by
    by_contra hne
    obtain ⟨_, hb, _, hd⟩ := scanUp_free 129 127 hne
    have heq : spillSlot toU = scanUp toU 127 129 := by
      have hne1 : scanUp toU 127 129 ≠ 1 := by omega
      simp [spillSlot, hs1, hne1]
    rw [heq] at h
    exact hne h
  constructor
  · intro k hk1 hk2 hfree
    have := scanDown_max 31 k hk1 hk2 hfree
    omega
  · intro k hk1 hk2 hfree
    obtain ⟨hne, _⟩ := scanUp_le 129 127 k (by omega) hk1 (by omega) hfree
    rw [hs2] at hne
    exact hne rfl

theorem spillSlot_zero_mono {w : Nat → Option Nat} {f : FontEnc} (r' : Nat)
    (h : spillSlot f.toUnicode = 0) : spillSlot (encodeRune w f r').2.toUnicode = 0 := by
  obtain ⟨ho1, ho2⟩ := spillSlot_zero_occupied h
  have hs1 : scanDown (encodeRune w f r').2.toUnicode 0 31 = 0 :=
    scanDown_eq_zero (fun k hk1 hk2 =>
      encodeRune_occupied_mono r' k (ho1 k hk1 hk2))
  have hs2 : scanUp (encodeRune w f r').2.toUnicode 127 129 = 0 :=
    scanUp_eq_zero (fun k hk1 hk2 =>
      encodeRune_occupied_mono r' k (ho2 k hk1 (by omega)))
  simp [spillSlot, hs1, hs2]

theorem exhausted_mono_one {w : Nat → Option Nat} {f : FontEnc} {r : Nat} (r' : Nat)
    (h : ExhaustedFor w f r) : ExhaustedFor w (encodeRune w f r').2 r := by
  refine ⟨?_, ?_, spillSlot_zero_mono r' h.2.2⟩
  · rcases encodeRune_cases w f r' with ⟨b', _, he⟩ | ⟨hn, ⟨b', he, _⟩ | ⟨he, _⟩⟩
    · rw [he]; exact h.1
    · rw [he]
      show alookup ((r', b') :: f.encode) r = none
      have hne : r' ≠ r := by
        intro heq
        subst heq
        have := encodeRune_exhausted h
        rw [this] at he
        have := congrArg (fun p => p.1.2) he
        simp at this
      rw [alookup_cons, if_neg hne]
      exact h.1
    · rw [he]; exact h.1
  · intro c hc
    exact encodeRune_occupied_mono r' c (h.2.1 c hc)

theorem exhausted_mono {w : Nat → Option Nat} {r : Nat} (rs : List Nat) :
    ∀ {f : FontEnc}, ExhaustedFor w f r → ExhaustedFor w (encodeRunes w f rs) r := by
  induction rs with
  | nil => intro f h; exact h
  | cons r' rs ih =>
      intro f h
      exact ih (exhausted_mono_one r' h)

theorem encodeString_snd (w : Nat → Option Nat) (s : List Nat) :
    ∀ f : FontEnc, (encodeString w f s).2 = encodeRunes w f s := by
  induction s with
  | nil => intro f; rfl
  | cons r rs ih =>
      intro f
      show (encodeString w (encodeRune w f r).2 rs).2 = _
      rw [ih]
      rfl

theorem encodeString_idem (w : Nat → Option Nat) (s : List Nat) :
    ∀ f : FontEnc, encodeString w (encodeString w f s).2 s = encodeString w f s := by
  induction s with
  | nil => intro f; rfl
  | cons r rs ih =>
      intro f
      rcases encodeRune_cases w f r with ⟨b, hc, he⟩ | ⟨hn, ⟨b, he, hfree⟩ | ⟨he, hex⟩⟩
      · have h1 : encodeString w f (r :: rs) =
            (b :: (encodeString w f rs).1, (encodeString w f rs).2) := by
          show (let p := encodeRune w f r
                let q := encodeString w p.2 rs
                (if p.1.2 then p.1.1 :: q.1 else q.1, q.2)) = _
          rw [he]
          rfl
        rw [h1]
        have hF : alookup (encodeString w f rs).2.encode r = some b := by
          rw [encodeString_snd]
          exact encodeRunes_mono hc
        show (let p := encodeRune w (encodeString w f rs).2 r
              let q := encodeString w p.2 rs
              (if p.1.2 then p.1.1 :: q.1 else q.1, q.2)) = _
        rw [encodeRune_cached hF]
        have h2 := ih f
        show (b :: (encodeString w (encodeString w f rs).2 rs).1,
              (encodeString w (encodeString w f rs).2 rs).2) = _
        rw [h2]
      · have h1 : encodeString w f (r :: rs) =
            (b :: (encodeString w (assignCode f r b) rs).1,
              (encodeString w (assignCode f r b) rs).2) := by
          show (let p := encodeRune w f r
                let q := encodeString w p.2 rs
                (if p.1.2 then p.1.1 :: q.1 else q.1, q.2)) = _
          rw [he]
          rfl
        rw [h1]
        have hreg : alookup (assignCode f r b).encode r = some b := by
          show alookup ((r, b) :: f.encode) r = some b
          rw [alookup_cons, if_pos rfl]
        have hF : alookup (encodeString w (assignCode f r b) rs).2.encode r = some b := by
          rw [encodeString_snd]
          exact encodeRunes_mono hreg
        show (let p := encodeRune w (encodeString w (assignCode f r b) rs).2 r
              let q := encodeString w p.2 rs
              (if p.1.2 then p.1.1 :: q.1 else q.1, q.2)) = _
        rw [encodeRune_cached hF]
        have h2 := ih (assignCode f r b)
        show (b :: (encodeString w (encodeString w (assignCode f r b) rs).2 rs).1,
              (encodeString w (encodeString w (assignCode f r b) rs).2 rs).2) = _
        rw [h2]
      · have h1 : encodeString w f (r :: rs) =
            ((encodeString w f rs).1, (encodeString w f rs).2) := by
          show (let p := encodeRune w f r
                let q := encodeString w p.2 rs
                (if p.1.2 then p.1.1 :: q.1 else q.1, q.2)) = _
          rw [he]
          rfl
        rw [h1]
        have hexF : ExhaustedFor w (encodeString w f rs).2 r := by
          rw [encodeString_snd]
          exact exhausted_mono rs hex
        show (let p := encodeRune w (encodeString w f rs).2 r
              let q := encodeString w p.2 rs
              (if p.1.2 then p.1.1 :: q.1 else q.1, q.2)) = _
        rw [encodeRune_exhausted hexF]
        have h2 := ih f
        show ((encodeString w (encodeString w f rs).2 rs).1,
              (encodeString w (encodeString w f rs).2 rs).2) = _
        rw [h2]

/-! ## Kerning-aware layout: `encodeAndKern` and `Truncate`

The font-program reader is external: `gi` models `GlyphIndex` (rune to
glyph, `none` on error), `adv` models `GlyphAdvance` rounded to glyph
units, `kern` models `Kern` rounded to glyph units.  A `TJItem` is one
entry of the show array: a quoted chunk (kept as its raw bytes — the
escaping of `quoteString` is irrelevant here) or a positioning number. -/

/-- One entry of the alternating string/number show array. -/
inductive TJItem : Type where
  | chunk : List Nat → TJItem
  | adj : Int → TJItem
  deriving DecidableEq, Repr

/-- The bytes actually shown: the chunks concatenated in order. -/
def tjBytes : List TJItem → List Nat
  | [] => []
  | TJItem.chunk bs :: ts => bs ++ tjBytes ts
  | TJItem.adj _ :: ts => tjBytes ts

/-- Go slice `s[a:b]`. -/
def slice (bs : List Nat) (a b : Nat) : List Nat := (bs.take b).drop a

/-- Loop of `encodeAndKern`, with fuel equal to the remaining byte count
(the caller passes `bs.length` with `i = 0`).  State: index `i`, current
chunk start, accumulated width, previous glyph, and the show array built
so far.  A glyph whose advance would push the width past a nonzero
`maxW` stops the loop at once, flushing the chunk and returning the width
as of the previous glyph. -/
def eakLoop (gi : Nat → Option Nat) (adv : Nat → Option Int)
    (kern : Nat → Nat → Option Int) (toU : List Nat) (bs : List Nat) (maxW : Int) :
    Nat → Nat → Nat → Int → Nat → List TJItem → List TJItem × Int
  | 0, _, chunkStart, width, _, tj =>
      (tj ++ [TJItem.chunk (slice bs chunkStart bs.length)], width)
  | n + 1, i, chunkStart, width, prevG, tj =>
      match gi (toU.getD (bs.getD i 0) 0) with
      | none => eakLoop gi adv kern toU bs maxW n (i + 1) chunkStart width prevG tj
      | some g =>
          match (match adv g with
                 | some a =>
                     if maxW ≠ 0 ∧ width + a > maxW then none else some (width + a)
                 | none => some width) with
          | none => (tj ++ [TJItem.chunk (slice bs chunkStart i)], width)
          | some w1 =>
              match (if i ≠ 0 then kern prevG g else none) with
              | some k =>
                  if k ≠ 0 then
                    eakLoop gi adv kern toU bs maxW n (i + 1) i (w1 + k) g
                      (tj ++ [TJItem.chunk (slice bs chunkStart i), TJItem.adj (-k)])
                  else eakLoop gi adv kern toU bs maxW n (i + 1) chunkStart w1 g tj
              | none => eakLoop gi adv kern toU bs maxW n (i + 1) chunkStart w1 g tj

/-- Model of `Font.encodeAndKern`: encode the string, then walk the byte
codes accumulating advances and kerning adjustments. -/
def encodeAndKern (gi : Nat → Option Nat) (adv : Nat → Option Int)
    (kern : Nat → Nat → Option Int) (w : Nat → Option Nat) (f : FontEnc)
    (s : List Nat) (maxW : Int) : (List TJItem × Int) × FontEnc :=
  let p := encodeString w f s
  (eakLoop gi adv kern p.2.toUnicode p.1 maxW p.1.length 0 0 0 0 [], p.2)

/-- Model of `Font.runeWidth`: the rounded advance, or 0 on any error. -/
def runeWidth (gi : Nat → Option Nat) (adv : Nat → Option Int) (r : Nat) : Int :=
  match gi r with
  | none => 0
  | some g =>
      match adv g with
      | none => 0
      | some a => a

/-- The ellipsis rune (U+2026). -/
def ellipsisRune : Nat := 8230

/-- Model of `Page.Truncate` after the budget conversion: show the whole
string when it fits; otherwise re-encode with the budget reduced by the
ellipsis width and append the encoded ellipsis when it has a code. -/
def TruncateTJ (gi : Nat → Option Nat) (adv : Nat → Option Int)
    (kern : Nat → Nat → Option Int) (w : Nat → Option Nat) (f : FontEnc)
    (scaledWidth : Int) (s : List Nat) : List TJItem × FontEnc :=
  let full := encodeAndKern gi adv kern w f s 0
  if full.1.2 ≤ scaledWidth then (full.1.1, full.2)
  else
    let tr := encodeAndKern gi adv kern w full.2 s
      (scaledWidth - runeWidth gi adv ellipsisRune)
    let el := encodeRune w tr.2 ellipsisRune
    (if el.1.2 then tr.1.1 ++ [TJItem.chunk [el.1.1]] else tr.1.1, el.2)

/-- One step of the pure width/previous-glyph accumulation at index `i`. -/
def wgStep (gi : Nat → Option Nat) (adv : Nat → Option Int)
    (kern : Nat → Nat → Option Int) (toU : List Nat) (bs : List Nat)
    (i : Nat) (wg : Int × Nat) : Int × Nat :=
  match gi (toU.getD (bs.getD i 0) 0) with
  | none => wg
  | some g =>
      let w1 : Int :=
        match adv g with
        | some a => wg.1 + a
        | none => wg.1
      let w2 : Int :=
        match (if i ≠ 0 then kern wg.2 g else none) with
        | some k => if k ≠ 0 then w1 + k else w1
        | none => w1
      (w2, g)

/-- Accumulated width and previous glyph after the first `j` bytes. -/
def wgUpTo (gi : Nat → Option Nat) (adv : Nat → Option Int)
    (kern : Nat → Nat → Option Int) (toU : List Nat) (bs : List Nat) :
    Nat → Int × Nat
  | 0 => (0, 0)
  | j + 1 => wgStep gi adv kern toU bs j (wgUpTo gi adv kern toU bs j)

theorem tjBytes_append_chunk (tj : List TJItem) (c : List Nat) :
    tjBytes (tj ++ [TJItem.chunk c]) = tjBytes tj ++ c := by
  induction tj with
  | nil => simp [tjBytes]
  | cons t ts ih =>
      cases t with
      | chunk bs => simp [tjBytes, ih]
      | adj k => simp [tjBytes, ih]

theorem tjBytes_append_chunk_adj (tj : List TJItem) (c : List Nat) (k : Int) :
    tjBytes (tj ++ [TJItem.chunk c, TJItem.adj k]) = tjBytes tj ++ c := by
  induction tj with
  | nil => simp [tjBytes]
  | cons t ts ih =>
      cases t with
      | chunk bs => simp [tjBytes, ih]
      | adj k' => simp [tjBytes, ih]

theorem take_append_slice (bs : List Nat) (cs i : Nat) (h : cs ≤ i) :
    bs.take cs ++ slice bs cs i = bs.take i := by
  unfold slice
  have h1 : bs.take cs = (bs.take i).take cs := by
    rw [List.take_take, Nat.min_eq_left h]
  rw [h1, List.take_append_drop]

theorem wgUpTo_succ (gi : Nat → Option Nat) (adv : Nat → Option Int)
    (kern : Nat → Nat → Option Int) (toU bs : List Nat) (i : Nat) :
    wgUpTo gi adv kern toU bs (i + 1)
      = wgStep gi adv kern toU bs i (wgUpTo gi adv kern toU bs i) := rfl

theorem eakLoop_zero_width (gi : Nat → Option Nat) (adv : Nat → Option Int)
    (kern : Nat → Nat → Option Int) (toU bs : List Nat) :
    ∀ (n i cs : Nat) (tj : List TJItem),
      i + n = bs.length →
      (eakLoop gi adv kern toU bs 0 n i cs (wgUpTo gi adv kern toU bs i).1
          (wgUpTo gi adv kern toU bs i).2 tj).2
        = (wgUpTo gi adv kern toU bs bs.length).1 := by
  intro n
  induction n with
  | zero =>
      intro i cs tj hlen
      have hie : i = bs.length := by omega
      rw [hie]
      rfl
  | succ n ih =>
      intro i cs tj hlen
      cases hgi : gi (toU.getD (bs.getD i 0) 0) with
      | none =>
          have hstep : wgUpTo gi adv kern toU bs (i + 1)
              = wgUpTo gi adv kern toU bs i := by
            rw [wgUpTo_succ]
            simp only [wgStep, hgi]
          have hrec := ih (i + 1) cs tj (by omega)
          rw [hstep] at hrec
          simp only [eakLoop, hgi]
          exact hrec
      | some g =>
          cases hadv : adv g with
          | some a =>
              have hntr : ¬((0 : Int) ≠ 0 ∧
                  (wgUpTo gi adv kern toU bs i).1 + a > 0) := fun hcon => hcon.1 rfl
              cases hke : (if i ≠ 0 then kern (wgUpTo gi adv kern toU bs i).2 g
                  else none) with
              | some k =>
                  by_cases hkz : k ≠ 0
                  · have hstep : wgUpTo gi adv kern toU bs (i + 1)
                        = ((wgUpTo gi adv kern toU bs i).1 + a + k, g) := by
                      rw [wgUpTo_succ]
                      simp only [wgStep, hgi, hadv, hke, if_pos hkz]
                    have hrec := ih (i + 1) i
                      (tj ++ [TJItem.chunk (slice bs cs i), TJItem.adj (-k)]) (by omega)
                    rw [hstep] at hrec
                    simp only [eakLoop, hgi, hadv, if_neg hntr, hke, if_pos hkz]
                    exact hrec
                  · have hstep : wgUpTo gi adv kern toU bs (i + 1)
                        = ((wgUpTo gi adv kern toU bs i).1 + a, g) := by
                      rw [wgUpTo_succ]
                      simp only [wgStep, hgi, hadv, hke, if_neg hkz]
                    have hrec := ih (i + 1) cs tj (by omega)
                    rw [hstep] at hrec
                    simp only [eakLoop, hgi, hadv, if_neg hntr, hke, if_neg hkz]
                    exact hrec
              | none =>
                  have hstep : wgUpTo gi adv kern toU bs (i + 1)
                      = ((wgUpTo gi adv kern toU bs i).1 + a, g) := by
                    rw [wgUpTo_succ]
                    simp only [wgStep, hgi, hadv, hke]
                  have hrec := ih (i + 1) cs tj (by omega)
                  rw [hstep] at hrec
                  simp only [eakLoop, hgi, hadv, if_neg hntr, hke]
                  exact hrec
          | none =>
              cases hke : (if i ≠ 0 then kern (wgUpTo gi adv kern toU bs i).2 g
                  else none) with
              | some k =>
                  by_cases hkz : k ≠ 0
                  · have hstep : wgUpTo gi adv kern toU bs (i + 1)
                        = ((wgUpTo gi adv kern toU bs i).1 + k, g) := by
                      rw [wgUpTo_succ]
                      simp only [wgStep, hgi, hadv, hke, if_pos hkz]
                    have hrec := ih (i + 1) i
                      (tj ++ [TJItem.chunk (slice bs cs i), TJItem.adj (-k)]) (by omega)
                    rw [hstep] at hrec
                    simp only [eakLoop, hgi, hadv, hke, if_pos hkz]
                    exact hrec
                  · have hstep : wgUpTo gi adv kern toU bs (i + 1)
                        = ((wgUpTo gi adv kern toU bs i).1, g) := by
                      rw [wgUpTo_succ]
                      simp only [wgStep, hgi, hadv, hke, if_neg hkz]
                    have hrec := ih (i + 1) cs tj (by omega)
                    rw [hstep] at hrec
                    simp only [eakLoop, hgi, hadv, hke, if_neg hkz]
                    exact hrec
              | none =>
                  have hstep : wgUpTo gi adv kern toU bs (i + 1)
                      = ((wgUpTo gi adv kern toU bs i).1, g) := by
                    rw [wgUpTo_succ]
                    simp only [wgStep, hgi, hadv, hke]
                  have hrec := ih (i + 1) cs tj (by omega)
                  rw [hstep] at hrec
                  simp only [eakLoop, hgi, hadv, hke]
                  exact hrec

theorem eakLoop_sim (gi : Nat → Option Nat) (adv : Nat → Option Int)
    (kern : Nat → Nat → Option Int) (toU bs : List Nat) (maxW : Int)
    (hk : ∀ g g' k, kern g g' = some k → k ≤ 0) (hmw : 0 < maxW) :
    ∀ (n i cs : Nat) (tj : List TJItem),
      i + n = bs.length → cs ≤ i →
      tjBytes tj = bs.take cs →
      (wgUpTo gi adv kern toU bs i).1 ≤ maxW →
      (tjBytes (eakLoop gi adv kern toU bs maxW n i cs
            (wgUpTo gi adv kern toU bs i).1 (wgUpTo gi adv kern toU bs i).2 tj).1 = bs ∧
        (eakLoop gi adv kern toU bs maxW n i cs (wgUpTo gi adv kern toU bs i).1
            (wgUpTo gi adv kern toU bs i).2 tj).2
          = (wgUpTo gi adv kern toU bs bs.length).1 ∧
        (eakLoop gi adv kern toU bs maxW n i cs (wgUpTo gi adv kern toU bs i).1
            (wgUpTo gi adv kern toU bs i).2 tj).2 ≤ maxW) ∨
      (∃ j, j < bs.length ∧
        tjBytes (eakLoop gi adv kern toU bs maxW n i cs
            (wgUpTo gi adv kern toU bs i).1 (wgUpTo gi adv kern toU bs i).2 tj).1
          = bs.take j ∧
        (eakLoop gi adv kern toU bs maxW n i cs (wgUpTo gi adv kern toU bs i).1
            (wgUpTo gi adv kern toU bs i).2 tj).2
          = (wgUpTo gi adv kern toU bs j).1 ∧
        (eakLoop gi adv kern toU bs maxW n i cs (wgUpTo gi adv kern toU bs i).1
            (wgUpTo gi adv kern toU bs i).2 tj).2 ≤ maxW) := by
  intro n
  induction n with
  | zero =>
      intro i cs tj hlen hcs htj hw
      have hie : i = bs.length := by omega
      subst hie
      refine Or.inl ⟨?_, rfl, hw⟩
      show tjBytes (tj ++ [TJItem.chunk (slice bs cs bs.length)]) = bs
      rw [tjBytes_append_chunk, htj, take_append_slice bs cs bs.length hcs,
        List.take_length]
  | succ n ih =>
      intro i cs tj hlen hcs htj hw
      have hilen : i < bs.length := by omega
      cases hgi : gi (toU.getD (bs.getD i 0) 0) with
      | none =>
          have hstep : wgUpTo gi adv kern toU bs (i + 1)
              = wgUpTo gi adv kern toU bs i := by
            rw [wgUpTo_succ]
            simp only [wgStep, hgi]
          have hrec := ih (i + 1) cs tj (by omega) (by omega) htj
            (by rw [hstep]; exact hw)
          rw [hstep] at hrec
          simp only [eakLoop, hgi]
          exact hrec
      | some g =>
          cases hadv : adv g with
          | some a =>
              by_cases htr : maxW ≠ 0 ∧ (wgUpTo gi adv kern toU bs i).1 + a > maxW
              · simp only [eakLoop, hgi, hadv, if_pos htr]
                refine Or.inr ⟨i, hilen, ?_, rfl, hw⟩
                rw [tjBytes_append_chunk, htj, take_append_slice bs cs i hcs]
              · have hw1 : (wgUpTo gi adv kern toU bs i).1 + a ≤ maxW := by
                  by_contra hgt
                  exact htr ⟨by omega, by omega⟩
                cases hke : (if i ≠ 0 then kern (wgUpTo gi adv kern toU bs i).2 g
                    else none) with
                | some k =>
                    have hkk : k ≤ 0 := by
                      by_cases hi0 : i ≠ 0
                      · rw [if_pos hi0] at hke
                        exact hk _ _ _ hke
                      · rw [if_neg hi0] at hke
                        exact absurd hke (by simp)
                    by_cases hkz : k ≠ 0
                    · have hstep : wgUpTo gi adv kern toU bs (i + 1)
                          = ((wgUpTo gi adv kern toU bs i).1 + a + k, g) := by
                        rw [wgUpTo_succ]
                        simp only [wgStep, hgi, hadv, hke, if_pos hkz]
                      have htj' : tjBytes (tj ++ [TJItem.chunk (slice bs cs i),
                          TJItem.adj (-k)]) = bs.take i := by
                        rw [tjBytes_append_chunk_adj, htj, take_append_slice bs cs i hcs]
                      have hrec := ih (i + 1) i
                        (tj ++ [TJItem.chunk (slice bs cs i), TJItem.adj (-k)])
                        (by omega) (by omega) htj' (by rw [hstep]; show _ + a + k ≤ maxW; omega)
                      rw [hstep] at hrec
                      simp only [eakLoop, hgi, hadv, if_neg htr, hke, if_pos hkz]
                      exact hrec
                    · have hstep : wgUpTo gi adv kern toU bs (i + 1)
                          = ((wgUpTo gi adv kern toU bs i).1 + a, g) := by
                        rw [wgUpTo_succ]
                        simp only [wgStep, hgi, hadv, hke, if_neg hkz]
                      have hrec := ih (i + 1) cs tj (by omega) (by omega) htj
                        (by rw [hstep]; exact hw1)
                      rw [hstep] at hrec
                      simp only [eakLoop, hgi, hadv, if_neg htr, hke, if_neg hkz]
                      exact hrec
                | none =>
                    have hstep : wgUpTo gi adv kern toU bs (i + 1)
                        = ((wgUpTo gi adv kern toU bs i).1 + a, g) := by
                      rw [wgUpTo_succ]
                      simp only [wgStep, hgi, hadv, hke]
                    have hrec := ih (i + 1) cs tj (by omega) (by omega) htj
                      (by rw [hstep]; exact hw1)
                    rw [hstep] at hrec
                    simp only [eakLoop, hgi, hadv, if_neg htr, hke]
                    exact hrec
          | none =>
              cases hke : (if i ≠ 0 then kern (wgUpTo gi adv kern toU bs i).2 g
                  else none) with
              | some k =>
                  have hkk : k ≤ 0 := by
                    by_cases hi0 : i ≠ 0
                    · rw [if_pos hi0] at hke
                      exact hk _ _ _ hke
                    · rw [if_neg hi0] at hke
                      exact absurd hke (by simp)
                  by_cases hkz : k ≠ 0
                  · have hstep : wgUpTo gi adv kern toU bs (i + 1)
                        = ((wgUpTo gi adv kern toU bs i).1 + k, g) := by
                      rw [wgUpTo_succ]
                      simp only [wgStep, hgi, hadv, hke, if_pos hkz]
                    have htj' : tjBytes (tj ++ [TJItem.chunk (slice bs cs i),
                        TJItem.adj (-k)]) = bs.take i := by
                      rw [tjBytes_append_chunk_adj, htj, take_append_slice bs cs i hcs]
                    have hrec := ih (i + 1) i
                      (tj ++ [TJItem.chunk (slice bs cs i), TJItem.adj (-k)])
                      (by omega) (by omega) htj' (by rw [hstep]; show _ + k ≤ maxW; omega)
                    rw [hstep] at hrec
                    simp only [eakLoop, hgi, hadv, hke, if_pos hkz]
                    exact hrec
                  · have hstep : wgUpTo gi adv kern toU bs (i + 1)
                        = ((wgUpTo gi adv kern toU bs i).1, g) := by
                      rw [wgUpTo_succ]
                      simp only [wgStep, hgi, hadv, hke, if_neg hkz]
                    have hrec := ih (i + 1) cs tj (by omega) (by omega) htj
                      (by rw [hstep]; exact hw)
                    rw [hstep] at hrec
                    simp only [eakLoop, hgi, hadv, hke, if_neg hkz]
                    exact hrec
              | none =>
                  have hstep : wgUpTo gi adv kern toU bs (i + 1)
                      = ((wgUpTo gi adv kern toU bs i).1, g) := by
                    rw [wgUpTo_succ]
                    simp only [wgStep, hgi, hadv, hke]
                  have hrec := ih (i + 1) cs tj (by omega) (by omega) htj
                    (by rw [hstep]; exact hw)
                  rw [hstep] at hrec
                  simp only [eakLoop, hgi, hadv, hke]
                  exact hrec

theorem runeWidth_nonneg {gi : Nat → Option Nat} {adv : Nat → Option Int}
    (hadv : ∀ g a, adv g = some a → 0 ≤ a) (r : Nat) : 0 ≤ runeWidth gi adv r := by
  unfold runeWidth
  cases hgr : gi r with
  | none => exact le_refl (0 : Int)
  | some g =>
      show (0 : Int) ≤ match adv g with
        | none => 0
        | some a => a
      cases hga : adv g with
      | none => exact le_refl (0 : Int)
      | some a => exact hadv g a hga

/-- Claim C7 (amended): when the full encoding of `s` is wider than the
glyph-space budget, and additionally the budget reduced by the ellipsis
advance is positive, all kern values are nonpositive, advances are
nonnegative, and the ellipsis is encodable, then the rendered sequence is
a strict prefix (by glyph count) of the full encoding of `s` followed by
the ellipsis byte, the width returned by the truncating `encodeAndKern`
call is the accumulated width as of the last glyph that still fit, and
that width plus the ellipsis advance stays within the budget. -/
theorem C7_truncate_prefix_and_width (gi : Nat → Option Nat) (adv : Nat → Option Int)
    (kern : Nat → Nat → Option Int) (w : Nat → Option Nat) (f : FontEnc)
    (scaledWidth : Int) (s : List Nat)
    (hkern : ∀ g g' k, kern g g' = some k → k ≤ 0)
    (hadv : ∀ g a, adv g = some a → 0 ≤ a)
    (hbudget : 0 < scaledWidth - runeWidth gi adv ellipsisRune)
    (hover : scaledWidth < (encodeAndKern gi adv kern w f s 0).1.2)
    (hellip : (encodeRune w (encodeString w f s).2 ellipsisRune).1.2 = true) :
    ∃ j, j < (encodeString w f s).1.length ∧
      tjBytes (TruncateTJ gi adv kern w f scaledWidth s).1
        = (encodeString w f s).1.take j
          ++ [(encodeRune w (encodeString w f s).2 ellipsisRune).1.1] ∧
      (encodeAndKern gi adv kern w (encodeAndKern gi adv kern w f s 0).2 s
          (scaledWidth - runeWidth gi adv ellipsisRune)).1.2
        = (wgUpTo gi adv kern (encodeString w f s).2.toUnicode
            (encodeString w f s).1 j).1 ∧
      (wgUpTo gi adv kern (encodeString w f s).2.toUnicode
          (encodeString w f s).1 j).1
        + runeWidth gi adv ellipsisRune ≤ scaledWidth := by
  have hell0 : 0 ≤ runeWidth gi adv ellipsisRune := runeWidth_nonneg hadv ellipsisRune
  have hfw : (encodeAndKern gi adv kern w f s 0).1.2
      = (wgUpTo gi adv kern (encodeString w f s).2.toUnicode
          (encodeString w f s).1 (encodeString w f s).1.length).1 :=
    eakLoop_zero_width gi adv kern (encodeString w f s).2.toUnicode
      (encodeString w f s).1 (encodeString w f s).1.length 0 0 [] (by omega)
  have htr : encodeAndKern gi adv kern w (encodeAndKern gi adv kern w f s 0).2 s
        (scaledWidth - runeWidth gi adv ellipsisRune)
      = (eakLoop gi adv kern (encodeString w f s).2.toUnicode (encodeString w f s).1
          (scaledWidth - runeWidth gi adv ellipsisRune)
          (encodeString w f s).1.length 0 0
          (wgUpTo gi adv kern (encodeString w f s).2.toUnicode (encodeString w f s).1 0).1
          (wgUpTo gi adv kern (encodeString w f s).2.toUnicode (encodeString w f s).1 0).2
          [], (encodeString w f s).2) := by
    show encodeAndKern gi adv kern w (encodeString w f s).2 s _ = _
    unfold encodeAndKern
    rw [encodeString_idem w s f]
    rfl
  have hsim := eakLoop_sim gi adv kern (encodeString w f s).2.toUnicode
    (encodeString w f s).1 (scaledWidth - runeWidth gi adv ellipsisRune)
    hkern (by omega) (encodeString w f s).1.length 0 0 [] (by omega) (by omega) rfl
    (show ((0 : Int), 0).1 ≤ _ by omega)
  rcases hsim with ⟨_, hfeq, hfle⟩ | ⟨j, hj, hbytes, hwid, hle⟩
  · exfalso
    rw [hfw] at hover
    omega
  · refine ⟨j, hj, ?_, ?_, ?_⟩
    · have hnot : ¬((encodeAndKern gi adv kern w f s 0).1.2 ≤ scaledWidth) :=
        not_le.mpr hover
      show tjBytes (TruncateTJ gi adv kern w f scaledWidth s).1 = _
      simp only [TruncateTJ]
      rw [if_neg hnot, htr, hellip, if_pos rfl]
      show tjBytes (_ ++ [TJItem.chunk [_]]) = _
      rw [tjBytes_append_chunk, hbytes]
    · rw [htr]
      exact hwid
    · rw [← hwid]
      omega

/-- Concrete glyph-index table: 'A' is glyph 1, the ellipsis glyph 2. -/
def giW : Nat → Option Nat :=
  fun r => if r = 65 then some 1 else if r = ellipsisRune then some 2 else none

/-- Concrete advances: 600 for 'A', 500 for the ellipsis. -/
def advW : Nat → Option Int :=
  fun g => if g = 1 then some 600 else if g = 2 then some 500 else none

/-- Concrete kerning table: no kern pairs. -/
def kernW : Nat → Nat → Option Int := fun _ _ => none

theorem advW_nonneg : ∀ g a, advW g = some a → 0 ≤ a := by
  intro g a h
  unfold advW at h
  by_cases h1 : g = 1
  · rw [if_pos h1] at h
    injection h with he
    omega
  · rw [if_neg h1] at h
    by_cases h2 : g = 2
    · rw [if_pos h2] at h
      injection h with he
      omega
    · rw [if_neg h2] at h
      exact Option.noConfusion h

set_option maxRecDepth 100000 in
theorem C7_witness :
    ∃ j, j < (encodeString wAscii font0 [65, 65, 65]).1.length ∧
      tjBytes (TruncateTJ giW advW kernW wAscii font0 1500 [65, 65, 65]).1
        = (encodeString wAscii font0 [65, 65, 65]).1.take j
          ++ [(encodeRune wAscii (encodeString wAscii font0 [65, 65, 65]).2
              ellipsisRune).1.1] ∧
      (encodeAndKern giW advW kernW wAscii
          (encodeAndKern giW advW kernW wAscii font0 [65, 65, 65] 0).2 [65, 65, 65]
          (1500 - runeWidth giW advW ellipsisRune)).1.2
        = (wgUpTo giW advW kernW (encodeString wAscii font0 [65, 65, 65]).2.toUnicode
            (encodeString wAscii font0 [65, 65, 65]).1 j).1 ∧
      (wgUpTo giW advW kernW (encodeString wAscii font0 [65, 65, 65]).2.toUnicode
          (encodeString wAscii font0 [65, 65, 65]).1 j).1
        + runeWidth giW advW ellipsisRune ≤ 1500 :=
  C7_truncate_prefix_and_width giW advW kernW wAscii font0 1500 [65, 65, 65]
    (fun _ _ _ h => Option.noConfusion h) advW_nonneg (by decide) (by decide) (by decide)

set_option maxRecDepth 100000 in
/-- Claim C7 (counterexample): with an ellipsis exactly as wide as the
budget, the reduced budget is 0 — `encodeAndKern`'s sentinel for "no
limit" — so no truncation happens: the rendered bytes are the WHOLE
encoding of "AA" plus the ellipsis, not a strict prefix, and the shown
width (1700) far exceeds the budget (500), though the input is wider than
the budget (1200 > 500) as the claim requires. -/
theorem C7_counterexample :
    500 < (encodeAndKern giW advW kernW wAscii font0 [65, 65] 0).1.2 ∧
      tjBytes (TruncateTJ giW advW kernW wAscii font0 500 [65, 65]).1 = [65, 65, 31] ∧
      ∀ j, j < (encodeString wAscii font0 [65, 65]).1.length → ∀ e : Nat,
        tjBytes (TruncateTJ giW advW kernW wAscii font0 500 [65, 65]).1
          ≠ (encodeString wAscii font0 [65, 65]).1.take j ++ [e] := by
  refine ⟨by decide, by decide, ?_⟩
  intro j hj e hcontra
  have h1 : tjBytes (TruncateTJ giW advW kernW wAscii font0 500 [65, 65]).1
      = [65, 65, 31] := by decide
  have h2 : (encodeString wAscii font0 [65, 65]).1 = [65, 65] := by decide
  have hlen : (encodeString wAscii font0 [65, 65]).1.length = 2 := by decide
  rw [h1, h2] at hcontra
  have h3 := congrArg List.length hcontra
  rw [List.length_append, List.length_take] at h3
  simp at h3
  omega

end PdfVerify
